import Mathlib

/-!
Verification of the cnab-stream fixed-width record codec.

The development shallowly embeds the Go sources `cnab/processor.go`,
`cnab/fields.go` and the error taxonomy of `errors/errors.go` /
`internal/error/error.go`.

Modelling conventions:
* Go byte slices and strings manipulated by the codec are modelled as
  `List Char` (each `Char` stands for one byte; all data in scope is ASCII).
* Go `int` is a 64-bit machine integer; arithmetic that can overflow
  (`atoiUnsafe`) is modelled on `Int` with an explicit two's-complement
  wrap `wrap64`.
* Go `float64` is modelled as exact rationals `ℚ`; IEEE-754 rounding of
  float arithmetic is not modelled, only the algebraic content of the
  scaled-decimal encoding.
* Go `context.Context` is modelled as a `Bool` that is `true` when the
  context is already cancelled; `ctx.Err()` is the `cancelled` error.
* `sync.Pool` holding the pack buffer is modelled by threading the pooled
  backing array (a `List Char`, whose length is the Go capacity) through
  `PackRecord` explicitly.  `recordPool.New` yields 1024 zero bytes.
* Go runtime panics (slice bounds violations) are modelled by the
  `GoResult.panicked` constructor; a Go slice expression `b[lo:hi]` is
  legal iff `0 ≤ lo ≤ hi ≤ cap b`.
* The Go standard time layout engine (`time.Parse` / `Time.Format`) is
  modelled restricted to the layout chunks this codec can produce from
  its `YYYY`/`MM`/`DD` patterns: the chunks `2006`, `01`, `02`, and
  literal characters.
-/

namespace Cnab

set_option maxRecDepth 1000000

/-- Bytes of a record or of an in-flight string value; one `Char` per byte. -/
abbrev Bytes := List Char

/-- Whitespace set of `bytes.TrimSpace` restricted to ASCII input
(`asciiSpace` in the Go sources: tab, newline, vertical tab, form feed,
carriage return, space). -/
def isGoSpace (c : Char) : Bool :=
  c = ' ' ∨ c = '\t' ∨ c = '\n' ∨ c = '\x0b' ∨ c = '\x0c' ∨ c = '\r'

/-- Model of `bytes.TrimSpace`: drop leading and trailing whitespace. -/
def goTrimSpace (b : Bytes) : Bytes :=
  ((b.dropWhile isGoSpace).reverse.dropWhile isGoSpace).reverse

/-- ASCII decimal digit test, as the comparisons of `atoiUnsafe`. -/
def isDigitChar (c : Char) : Bool :=
  '0' ≤ c ∧ c ≤ '9'

/-- Numeric value of an ASCII digit (`c - '0'`). -/
def digitVal (c : Char) : Int :=
  (c.toNat : Int) - 48

/-- Fuel-driven helper for `natDigits`; the fuel only forces structural
recursion (it is never exhausted when called with fuel above `n`). -/
def natDigitsF : Nat → Nat → List Char
  | 0, _ => []
  | fuel + 1, n =>
    if n < 10 then [Char.ofNat (48 + n)]
    else natDigitsF fuel (n / 10) ++ [Char.ofNat (48 + n % 10)]

/-- Decimal digits of a natural number, most significant first
(model of Go's decimal integer formatting). -/
def natDigits (n : Nat) : List Char := natDigitsF (n + 1) n

theorem natDigitsF_congr : ∀ {f₁ f₂ n : Nat}, n < f₁ → n < f₂ →
    natDigitsF f₁ n = natDigitsF f₂ n := by
  intro f₁
  induction f₁ with
  | zero => intro f₂ n h1; omega
  | succ a ih =>
    intro f₂ n h1 h2
    match f₂ with
    | 0 => omega
    | b + 1 =>
      simp only [natDigitsF]
      split
      · rfl
      · rename_i hn
        rw [@ih b (n / 10) (by omega) (by omega)]

/-- Defining equation of `natDigits`. -/
theorem natDigits_eq (n : Nat) : natDigits n =
    if n < 10 then [Char.ofNat (48 + n)]
    else natDigits (n / 10) ++ [Char.ofNat (48 + n % 10)] := by
  show natDigitsF (n + 1) n = _
  rw [natDigitsF]
  split
  · rfl
  · rename_i hn
    rw [@natDigitsF_congr n (n / 10 + 1) (n / 10) (by omega) (by omega)]
    rfl

/-- Go `fmt` rendering of a signed decimal integer (`%d`). -/
def goIntRepr (n : Int) : Bytes :=
  if n < 0 then '-' :: natDigits (-n).toNat else natDigits n.toNat

/-- Go `fmt.Sprintf("%0*d", width, n)`: zero-pad the decimal rendering of
`n` on the left up to `width` characters; a sign comes before the zeros
and counts towards the width. -/
def goSprintfZeroPad (width : Int) (n : Int) : Bytes :=
  let s := goIntRepr n
  let w := width.toNat
  if s.length ≥ w then s
  else if n < 0 then
    '-' :: (List.replicate (w - s.length) '0' ++ natDigits (-n).toNat)
  else
    List.replicate (w - s.length) '0' ++ s

/-- Two's-complement wrap of an unbounded integer into the signed 64-bit
range, the effect of Go `int` overflow on amd64. -/
def wrap64 (x : Int) : Int :=
  (x + 2 ^ 63) % 2 ^ 64 - 2 ^ 63

/-- Truncation of a rational toward zero, the effect of Go's
float-to-integer conversion for in-range values. -/
def ratTrunc (q : ℚ) : Int :=
  if 0 ≤ q then ⌊q⌋ else -⌊-q⌋

/-- Go conversion `int64(f)` from the rational model of a `float64`:
truncation toward zero, with the amd64 out-of-range result `minInt64`. -/
def goTruncToInt64 (q : ℚ) : Int :=
  let t := ratTrunc q
  if t < -(2 ^ 63) ∨ 2 ^ 63 ≤ t then -(2 ^ 63) else t

/-- Calendar date held by the `time.Time` values this codec produces
(always midnight UTC, so only the date components are modelled). -/
structure GoDate where
  year : Int
  month : Int
  day : Int
deriving DecidableEq, Repr

/-- Leap-year rule of package `time`. -/
def goIsLeap (y : Int) : Bool :=
  y % 4 = 0 ∧ (y % 100 ≠ 0 ∨ y % 400 = 0)

/-- Days in a month, as `time.daysIn`. -/
def goDaysIn (y m : Int) : Int :=
  if m = 2 then (if goIsLeap y then 29 else 28)
  else if m = 4 ∨ m = 6 ∨ m = 9 ∨ m = 11 then 30
  else 31

/-- Layout chunks recognised by the modelled `time` layout scanner: the
reference chunks `2006` (4-digit year), `01` (2-digit month), `02`
(2-digit day), and literal characters.  These are the only chunks that
`convertDateFormat` can emit from `YYYY`/`MM`/`DD` patterns. -/
inductive LTok where
  | year : LTok
  | month : LTok
  | day : LTok
  | lit (c : Char) : LTok
deriving DecidableEq, Repr

/-- Fuel-driven helper for `scanLayout` (structural recursion only; the
fuel is never exhausted when it exceeds the layout length). -/
def scanLayoutF : Nat → List Char → List LTok
  | 0, _ => []
  | fuel + 1, l =>
    match l with
    | [] => []
    | c :: rest =>
      if c = '2' ∧ rest.take 3 = ['0', '0', '6'] then .year :: scanLayoutF fuel (rest.drop 3)
      else if c = '0' ∧ rest.take 1 = ['1'] then .month :: scanLayoutF fuel (rest.drop 1)
      else if c = '0' ∧ rest.take 1 = ['2'] then .day :: scanLayoutF fuel (rest.drop 1)
      else .lit c :: scanLayoutF fuel rest

/-- Iterated `time.nextStdChunk`, restricted to the chunks of `LTok`:
split a layout string into its chunks, longest match first. -/
def scanLayout (l : List Char) : List LTok := scanLayoutF (l.length + 1) l

theorem scanLayoutF_congr : ∀ {f₁ f₂ : Nat} {l : List Char}, l.length < f₁ → l.length < f₂ →
    scanLayoutF f₁ l = scanLayoutF f₂ l := by
  intro f₁
  induction f₁ with
  | zero => intro f₂ l h1; omega
  | succ a ih =>
    intro f₂ l h1 h2
    match f₂ with
    | 0 => omega
    | b + 1 =>
      match l with
      | [] => rfl
      | c :: rest =>
        simp only [List.length_cons] at h1 h2
        have hd : ∀ k : Nat, (rest.drop k).length < a ∧ (rest.drop k).length < b := by
          intro k
          simp only [List.length_drop]
          omega
        simp only [scanLayoutF]
        split
        · rw [@ih b (rest.drop 3) (hd 3).1 (hd 3).2]
        · split
          · rw [@ih b (rest.drop 1) (hd 1).1 (hd 1).2]
          · split
            · rw [@ih b (rest.drop 1) (hd 1).1 (hd 1).2]
            · rw [@ih b rest (by omega) (by omega)]

theorem scanLayout_nil : scanLayout [] = [] := rfl

theorem scanLayout_year (rest : List Char) :
    scanLayout ('2' :: '0' :: '0' :: '6' :: rest) = .year :: scanLayout rest := by
  have h1 : scanLayout ('2' :: '0' :: '0' :: '6' :: rest) =
      .year :: scanLayoutF (rest.length + 4) rest := rfl
  rw [h1, @scanLayoutF_congr (rest.length + 4) (rest.length + 1) rest (by omega) (by omega)]
  rfl

theorem scanLayout_month (rest : List Char) :
    scanLayout ('0' :: '1' :: rest) = .month :: scanLayout rest := by
  have h1 : scanLayout ('0' :: '1' :: rest) =
      .month :: scanLayoutF (rest.length + 2) rest := rfl
  rw [h1, @scanLayoutF_congr (rest.length + 2) (rest.length + 1) rest (by omega) (by omega)]
  rfl

theorem scanLayout_day (rest : List Char) :
    scanLayout ('0' :: '2' :: rest) = .day :: scanLayout rest := by
  have h1 : scanLayout ('0' :: '2' :: rest) =
      .day :: scanLayoutF (rest.length + 2) rest := rfl
  rw [h1, @scanLayoutF_congr (rest.length + 2) (rest.length + 1) rest (by omega) (by omega)]
  rfl

theorem scanLayout_lit (c : Char) (rest : List Char)
    (hy : ¬(c = '2' ∧ rest.take 3 = ['0', '0', '6']))
    (hm : ¬(c = '0' ∧ rest.take 1 = ['1']))
    (hd : ¬(c = '0' ∧ rest.take 1 = ['2'])) :
    scanLayout (c :: rest) = .lit c :: scanLayout rest := by
  show scanLayoutF (rest.length + 1 + 1) (c :: rest) = _
  simp only [scanLayoutF]
  rw [if_neg hy, if_neg hm, if_neg hd]
  rfl

/-- Left-pad the decimal digits of `n` with zeros to `w` characters, the
rendering `time` uses for year/month/day fields of a layout chunk. -/
def padNum (w : Nat) (n : Nat) : Bytes :=
  List.replicate (w - (natDigits n).length) '0' ++ natDigits n

/-- Rendering of one layout chunk for a date value. -/
def renderTok (d : GoDate) : LTok → Bytes
  | .year => padNum 4 d.year.toNat
  | .month => padNum 2 d.month.toNat
  | .day => padNum 2 d.day.toNat
  | .lit c => [c]

/-- Model of `time.Time.Format` on the layouts in scope: render each
chunk of the layout in order. -/
def goTimeFormat (layout : List Char) (d : GoDate) : Bytes :=
  (scanLayout layout).flatMap (renderTok d)

/-- Consume exactly `w` leading ASCII digits of `v` and return their value
and the remainder (`time`'s fixed-width `getnum`); fails on a short or
non-digit prefix. -/
def getFixedNum (w : Nat) (v : List Char) : Option (Int × List Char) :=
  let pre := v.take w
  if pre.length = w ∧ pre.all isDigitChar then
    some (pre.foldl (fun a c => a * 10 + digitVal c) 0, v.drop w)
  else none

/-- Chunk-by-chunk parsing loop of `time.Parse`: each chunk consumes part
of the value, accumulating year/month/day components (Go's defaults are
year 0, January 1). -/
def parseToks : List LTok → List Char → Int × Int × Int → Option (Int × Int × Int)
  | [], [], s => some s
  | [], _ :: _, _ => none
  | .year :: ts, v, (_, m, d) =>
    match getFixedNum 4 v with
    | some (n, rest) => parseToks ts rest (n, m, d)
    | none => none
  | .month :: ts, v, (y, _, d) =>
    match getFixedNum 2 v with
    | some (n, rest) => parseToks ts rest (y, n, d)
    | none => none
  | .day :: ts, v, (y, m, _) =>
    match getFixedNum 2 v with
    | some (n, rest) => parseToks ts rest (y, m, n)
    | none => none
  | .lit c :: ts, v, s =>
    match v with
    | [] => none
    | x :: xs => if x = c then parseToks ts xs s else none

/-- Errors of the codec: the named kinds of `errors/errors.go` plus the
plain `errors.New` values of `processor.go`, with the wrapped causes the
code attaches (`failedToParseField` and `failedToFormatField` retain the
handler's error, `fieldValueIsNotAnInt` retains the coercion error). -/
inductive CNABError where
  | startAndLengthMustBeGreaterThanZero (name : String)
  | fieldHasNoTypeSpecified (name : String)
  | missingDataForField (name : String)
  | failedToFormatField (cause : CNABError)
  | fieldExceedsSpecifiedLength (name : String)
  | fieldIsEmpty (name : String)
  | unsupportedFieldType (t : String)
  | fieldValueIsNotAnDate (name : String)
  | fieldValueIsNotAnString (name : String)
  | fieldValueIsNotAnInt (name : String) (cause : CNABError)
  | fieldValueIsNotAnFloat (name : String)
  | fieldExceedsRecordLength (name : String)
  | failedToParseField (name : String) (cause : CNABError)
  | cannotConvertToInt
  | cannotConvertToFloat
  | invalidIntegerInput
  | invalidDateLength
  | timeParseError
  | atoiSyntaxError
  | atoiRangeError
  | floatSyntaxError
  | cancelled
deriving DecidableEq, Repr

/-- Model of `time.Parse` on the layouts in scope: run the chunk loop,
then apply Go's range validation of the parsed month and day. -/
def goTimeParse (layout value : List Char) : Except CNABError GoDate :=
  match parseToks (scanLayout layout) value (0, 1, 1) with
  | none => .error .timeParseError
  | some (y, m, d) =>
    if m < 1 ∨ 12 < m then .error .timeParseError
    else if d < 1 ∨ goDaysIn y m < d then .error .timeParseError
    else .ok ⟨y, m, d⟩

/-- Match `pat` against a prefix of `l`, returning the remainder. -/
def matchPat : List Char → List Char → Option (List Char)
  | [], l => some l
  | _ :: _, [] => none
  | p :: ps, c :: s => if c = p then matchPat ps s else none

theorem matchPat_length {p : Char} {ps l r : List Char}
    (h : matchPat (p :: ps) l = some r) : r.length < l.length := by
  induction ps generalizing p l r with
  | nil =>
    match l with
    | [] => simp [matchPat] at h
    | c :: s =>
      simp only [matchPat] at h
      split at h
      · simp only [matchPat, Option.some.injEq] at h
        subst h; simp
      · cases h
  | cons q qs ih =>
    match l with
    | [] => simp [matchPat] at h
    | c :: s =>
      simp only [matchPat] at h
      split at h
      · have := ih (p := q) (l := s) (r := r) h
        simp only [List.length_cons]; omega
      · cases h

/-- Fuel-driven helper for `replaceAll` (structural recursion only). -/
def replaceAllF : Nat → List Char → List Char → List Char → List Char
  | 0, _, _, _ => []
  | fuel + 1, s, pat, rep =>
    match pat, s with
    | _, [] => []
    | [], s => s
    | p :: ps, c :: cs =>
      match matchPat (p :: ps) (c :: cs) with
      | some rest => rep ++ replaceAllF fuel rest (p :: ps) rep
      | none => c :: replaceAllF fuel cs (p :: ps) rep

/-- Model of `strings.ReplaceAll` for a non-empty pattern: replace
non-overlapping occurrences left to right.  (An empty pattern never
occurs in this codebase; the model leaves the string unchanged then.) -/
def replaceAll (s pat rep : List Char) : List Char :=
  replaceAllF (s.length + 1) s pat rep

theorem replaceAllF_congr : ∀ {f₁ f₂ : Nat} {s pat rep : List Char},
    s.length < f₁ → s.length < f₂ → replaceAllF f₁ s pat rep = replaceAllF f₂ s pat rep := by
  intro f₁
  induction f₁ with
  | zero => intro f₂ s pat rep h1; omega
  | succ a ih =>
    intro f₂ s pat rep h1 h2
    match f₂ with
    | 0 => omega
    | b + 1 =>
      match pat, s with
      | [], [] => rfl
      | p :: ps, [] => rfl
      | [], c :: cs => rfl
      | p :: ps, c :: cs =>
        simp only [List.length_cons] at h1 h2
        simp only [replaceAllF]
        match hm : matchPat (p :: ps) (c :: cs) with
        | some rest =>
          have := matchPat_length hm
          simp only [List.length_cons] at this
          simp only [hm]
          rw [@ih b rest (p :: ps) rep (by omega) (by omega)]
        | none =>
          simp only [hm]
          rw [@ih b cs (p :: ps) rep (by omega) (by omega)]

/-- Defining equation of `replaceAll`. -/
theorem replaceAll_s_nil (pat rep : List Char) : replaceAll [] pat rep = [] := by
  cases pat <;> rfl

theorem replaceAll_pat_nil (s rep : List Char) : replaceAll s [] rep = s := by
  cases s <;> rfl

theorem replaceAll_cons (p : Char) (ps : List Char) (c : Char) (cs rep : List Char) :
    replaceAll (c :: cs) (p :: ps) rep =
      match matchPat (p :: ps) (c :: cs) with
      | some rest => rep ++ replaceAll rest (p :: ps) rep
      | none => c :: replaceAll cs (p :: ps) rep := by
  have h1 : replaceAllF (cs.length + 1 + 1) (c :: cs) (p :: ps) rep =
      match matchPat (p :: ps) (c :: cs) with
      | some rest => rep ++ replaceAllF (cs.length + 1) rest (p :: ps) rep
      | none => c :: replaceAllF (cs.length + 1) cs (p :: ps) rep := rfl
  show replaceAllF (cs.length + 1 + 1) (c :: cs) (p :: ps) rep = _
  rw [h1]
  match hm : matchPat (p :: ps) (c :: cs) with
  | some rest =>
    have := matchPat_length hm
    simp only [List.length_cons] at this
    simp only [hm]
    rw [@replaceAllF_congr (cs.length + 1) (rest.length + 1) rest (p :: ps) rep
      (by omega) (by omega)]
    rfl
  | none => rfl

/-- Model of `convertDateFormat` (`processor.go`): literal substitution of
the `YYYY`/`MM`/`DD` tokens with the Go reference-layout chunks.  The Go
code iterates a map, but the three substitutions commute because the
patterns use disjoint letters and the replacements contain none of them,
so a fixed order is faithful. -/
def convertDateFormat (format : List Char) : List Char :=
  replaceAll (replaceAll (replaceAll format
    ['Y', 'Y', 'Y', 'Y'] ['2', '0', '0', '6'])
    ['M', 'M'] ['0', '1'])
    ['D', 'D'] ['0', '2']

/-- Model of `parseDateBytes` (`processor.go`). -/
def parseDateBytes (b : Bytes) (format : List Char) : Except CNABError GoDate :=
  if b.length ≠ format.length then .error .invalidDateLength
  else goTimeParse (convertDateFormat format) b

/-- Model of `formatDate` (`processor.go`). -/
def formatDate (value : GoDate) (format : List Char) : Bytes :=
  goTimeFormat (convertDateFormat format) value

/-- Model of `pow10` (`processor.go`): iterative multiplication, so a
non-positive argument yields exactly 1. -/
def pow10 (n : Int) : ℚ :=
  (List.range n.toNat).foldl (fun a _ => a * 10) 1

/-- Model of `atoiUnsafe` (`processor.go`): scan the bytes left to right,
rejecting any non-digit, and accumulate `n = n*10 + digit` in a Go `int`,
whose overflow silently wraps (`wrap64`). -/
def atoiUnsafe (b : Bytes) : Except CNABError Int :=
  go 0 b
where
  go : Int → Bytes → Except CNABError Int
  | n, [] => .ok n
  | n, c :: cs =>
    if c < '0' ∨ '9' < c then .error .invalidIntegerInput
    else go (wrap64 (n * 10 + digitVal c)) cs

/-- Model of `parseFloatBytes` (`processor.go`). -/
def parseFloatBytes (b : Bytes) (decimal : Int) : Except CNABError ℚ :=
  match atoiUnsafe b with
  | .error e => .error e
  | .ok intValue => .ok ((intValue : ℚ) / pow10 decimal)

/-- Dynamic value (`interface\x7b\x7d`) union as used by the codec: the Go
types its switches distinguish. -/
inductive GoValue where
  | int (v : Int) : GoValue
  | int64 (v : Int) : GoValue
  | float64 (q : ℚ) : GoValue
  | float32 (q : ℚ) : GoValue
  | str (s : Bytes) : GoValue
  | time (t : GoDate) : GoValue
deriving DecidableEq, Repr

/-- Model of `strconv.Atoi`: optional sign, non-empty digit run, signed
64-bit range check. -/
def goAtoi (s : Bytes) : Except CNABError Int :=
  let (sign, ds) :=
    match s with
    | '-' :: rest => ((-1 : Int), rest)
    | '+' :: rest => ((1 : Int), rest)
    | _ => ((1 : Int), s)
  if ds.length = 0 ∨ ¬ ds.all isDigitChar then .error .atoiSyntaxError
  else
    let v := sign * ds.foldl (fun a c => a * 10 + digitVal c) 0
    if v < -(2 ^ 63) ∨ 2 ^ 63 - 1 < v then .error .atoiRangeError
    else .ok v

/-- Model of `strconv.ParseFloat` restricted to plain decimal notation
(optional sign, digits, optional fraction), read exactly into `ℚ`; the
IEEE rounding step and the exponent/hex/inf forms are out of scope. -/
def goParseFloat (s : Bytes) : Except CNABError ℚ :=
  let (sign, ds) :=
    match s with
    | '-' :: rest => ((-1 : ℚ), rest)
    | '+' :: rest => ((1 : ℚ), rest)
    | _ => ((1 : ℚ), s)
  let intPart := ds.takeWhile isDigitChar
  let rest := ds.dropWhile isDigitChar
  let frac :=
    match rest with
    | '.' :: f => if f.length ≠ 0 ∧ f.all isDigitChar then some f else none
    | [] => some []
    | _ => none
  match frac with
  | none => .error .floatSyntaxError
  | some f =>
    if intPart.length = 0 ∧ f.length = 0 then .error .floatSyntaxError
    else
      let iv := intPart.foldl (fun a c => a * 10 + digitVal c) (0 : Int)
      let fv := f.foldl (fun a c => a * 10 + digitVal c) (0 : Int)
      .ok (sign * ((iv : ℚ) + (fv : ℚ) / (10 : ℚ) ^ f.length))

/-- Model of `toInt` (`processor.go`): accepts `int`, `int64`, `float64`
(truncated) and numeric strings. -/
def toInt (value : GoValue) : Except CNABError Int :=
  match value with
  | .int v => .ok v
  | .int64 v => .ok v
  | .float64 q => .ok (goTruncToInt64 q)
  | .str s => goAtoi s
  | _ => .error .cannotConvertToInt

/-- Model of `toFloat` (`processor.go`): accepts `float64`, `float32`,
`int`, `int64` and numeric strings. -/
def toFloat (value : GoValue) : Except CNABError ℚ :=
  match value with
  | .float64 q => .ok q
  | .float32 q => .ok q
  | .int v => .ok (v : ℚ)
  | .int64 v => .ok (v : ℚ)
  | .str s => goParseFloat s
  | _ => .error .cannotConvertToFloat

/-- Model of `FieldSpec` (`processor.go`); `ftype` is the Go `Type` field
(`type` is reserved in Lean) and `End` the precomputed inclusive end. -/
structure FieldSpec where
  name : String
  ftype : String
  start : Int
  length : Int
  format : List Char := []
  decimal : Int := 0
  End : Int := 0
deriving DecidableEq, Repr

/-- Model of `CNABSpec`: the ordered field list. -/
abbrev CNABSpec := List FieldSpec

/-- Model of `parseFieldValue` (`processor.go`): trim, reject an empty
residue for every type, then dispatch on the type name. -/
def parseFieldValue (field : FieldSpec) (rawValue : Bytes) : Except CNABError GoValue :=
  let trimmedValue := goTrimSpace rawValue
  if trimmedValue.length = 0 then .error (.fieldIsEmpty field.name)
  else
    match field.ftype with
    | "int" =>
      match atoiUnsafe trimmedValue with
      | .ok n => .ok (.int n)
      | .error e => .error e
    | "float" =>
      match parseFloatBytes trimmedValue field.decimal with
      | .ok q => .ok (.float64 q)
      | .error e => .error e
    | "date" =>
      match parseDateBytes trimmedValue field.format with
      | .ok d => .ok (.time d)
      | .error e => .error e
    | "string" => .ok (.str trimmedValue)
    | t => .error (.unsupportedFieldType t)

/-- Model of `formatFieldValue` (`processor.go`): dispatch on the type
name; numeric types render zero-padded to the declared length. -/
def formatFieldValue (field : FieldSpec) (value : GoValue) : Except CNABError Bytes :=
  match field.ftype with
  | "int" =>
    match toInt value with
    | .ok intValue => .ok (goSprintfZeroPad field.length intValue)
    | .error e => .error (.fieldValueIsNotAnInt field.name e)
  | "float" =>
    match toFloat value with
    | .ok floatValue =>
      .ok (goSprintfZeroPad field.length (goTruncToInt64 (floatValue * pow10 field.decimal)))
    | .error _ => .error (.fieldValueIsNotAnFloat field.name)
  | "date" =>
    match value with
    | .time dateValue => .ok (formatDate dateValue field.format)
    | _ => .error (.fieldValueIsNotAnDate field.name)
  | "string" =>
    match value with
    | .str strValue => .ok strValue
    | _ => .error (.fieldValueIsNotAnString field.name)
  | t => .error (.unsupportedFieldType t)

/-- Model of `parseStringField` (`fields.go`): the standalone string
handler, which trims and never applies the empty check.  It is not
invoked by the processor's `parseFieldValue`. -/
def parseStringField (_field : FieldSpec) (rawValue : Bytes) : Except CNABError GoValue :=
  .ok (.str (goTrimSpace rawValue))

/-- Go map from field names to dynamic values: insertion order with
later inserts shadowing earlier ones under `mlookup`. -/
abbrev RecordMap := List (String × GoValue)

/-- Lookup in a `RecordMap` (`data[field.Name]`). -/
def mlookup (m : RecordMap) (k : String) : Option GoValue :=
  match m with
  | [] => none
  | (k', v) :: rest => if k' = k then some v else mlookup rest k

/-- Insert into a `RecordMap` (`m[field.Name] = value`): prepend, so the
newest binding wins in `mlookup`. -/
def minsert (k : String) (v : GoValue) (m : RecordMap) : RecordMap :=
  (k, v) :: m

/-- Outcome of a Go call that can also crash: a value, a returned error,
or a runtime panic (slice bounds violation). -/
inductive GoResult (α : Type) where
  | ok (a : α) : GoResult α
  | err (e : CNABError) : GoResult α
  | panicked : GoResult α
deriving DecidableEq, Repr

/-- Model of `LoadSpec` (`processor.go`) after JSON decoding (the JSON
library is an external primitive): check cancellation once, then per
field compute `End = Start + Length - 1`, validate `Start > 0 ∧
Length > 0`, and validate only that the type string is non-empty. -/
def LoadSpec (ctx : Bool) (fields : CNABSpec) : Except CNABError CNABSpec :=
  if ctx then .error .cancelled else go fields
where
  go : CNABSpec → Except CNABError CNABSpec
  | [] => .ok []
  | f :: rest =>
    let f' := { f with End := f.start + f.length - 1 }
    if f'.start ≤ 0 ∨ f'.length ≤ 0 then
      .error (.startAndLengthMustBeGreaterThanZero f.name)
    else if f'.ftype = "" then
      .error (.fieldHasNoTypeSpecified f.name)
    else
      match go rest with
      | .ok rest' => .ok (f' :: rest')
      | .error e => .error e

/-- Model of the per-field helper `parseRecord` (`processor.go`): bounds
check against the record length, slice `record[Start-1 : End]` (a Go
slice panics when `lo ≤ hi ≤ len` fails), decode, wrap a decode error in
`FailedToParseField`, and insert the value. -/
def parseRecord (record : Bytes) (field : FieldSpec) (m : RecordMap) : GoResult RecordMap :=
  if field.End > (record.length : Int) then
    .err (.fieldExceedsRecordLength field.name)
  else
    if 0 ≤ field.start - 1 ∧ field.start - 1 ≤ field.End ∧
        field.End ≤ (record.length : Int) then
      match parseFieldValue field
        ((record.drop (field.start - 1).toNat).take (field.End - (field.start - 1)).toNat) with
      | .error e => .err (.failedToParseField field.name e)
      | .ok value => .ok (minsert field.name value m)
    else
      .panicked

/-- Model of `ParseRecord` (`processor.go`): per field, first poll the
cancellation signal (returning `ctx.Err()` when set), then run the
per-field helper; the first failure aborts with no partial map. -/
def ParseRecord (spec : CNABSpec) (ctx : Bool) (record : Bytes) : GoResult RecordMap :=
  go spec []
where
  go : CNABSpec → RecordMap → GoResult RecordMap
  | [], result => .ok result
  | field :: rest, result =>
    if ctx then .err .cancelled
    else
      match parseRecord record field result with
      | .ok result' => go rest result'
      | .err e => .err e
      | .panicked => .panicked

/-- Initial pooled buffer: `recordPool.New` allocates `make([]byte, 0,
1024)`, a zeroed array of capacity 1024. -/
def initialPool : List Char := List.replicate 1024 (Char.ofNat 0)

/-- Write `s` over `arr` starting at index `lo` (Go `copy` into the slice
window, which the caller has bounds-checked). -/
def writeSeg (arr : List Char) (lo : Nat) (s : List Char) : List Char :=
  arr.take lo ++ s ++ arr.drop (lo + s.length)

/-- Model of `PackRecord` (`processor.go`).  The pooled backing array is
threaded explicitly: `Get` yields `pool`; if its capacity is short a
fresh zeroed array of exactly `totalLength` replaces it; the deferred
`Put` stores the (possibly written-to) array back, so the second
component of the result is the new pool state.  The returned buffer is
`buf = arr[:totalLength]` — a view of that same pooled array.  Per field:
poll cancellation, look up the value, format it, enforce the declared
length, right-pad with spaces and `copy` into
`buf[Start-1 : End]` — the copy window is legal iff `End ≤ cap(arr)`,
otherwise the slice expression panics. -/
def PackRecord (spec : CNABSpec) (ctx : Bool) (data : RecordMap) (pool : List Char) :
    GoResult (List Char) × List Char :=
  let totalLength : Int := spec.foldl (fun a f => a + f.length) 0
  let tl := totalLength.toNat
  let arr0 := if pool.length < tl then List.replicate tl (Char.ofNat 0) else pool
  go tl spec arr0
where
  go (tl : Nat) : CNABSpec → List Char → GoResult (List Char) × List Char
  | [], arr => (.ok (arr.take tl), arr)
  | field :: rest, arr =>
    if ctx then (.err .cancelled, arr)
    else
      match mlookup data field.name with
      | none => (.err (.missingDataForField field.name), arr)
      | some value =>
        match formatFieldValue field value with
        | .error e => (.err (.failedToFormatField e), arr)
        | .ok strValue =>
          if (strValue.length : Int) > field.length then
            (.err (.fieldExceedsSpecifiedLength field.name), arr)
          else
            if 0 ≤ field.start - 1 ∧ field.start - 1 ≤ field.End ∧
                field.End ≤ (arr.length : Int) then
              go tl rest (writeSeg arr (field.start - 1).toNat
                ((strValue ++ List.replicate (field.length.toNat - strValue.length) ' ').take
                  (field.End - (field.start - 1)).toNat))
            else
              (.panicked, arr)

/-- Total length of a spec's record: the sum of the declared field
lengths, as computed at the top of `PackRecord`. -/
def totalLength (spec : CNABSpec) : Int :=
  spec.foldl (fun a f => a + f.length) 0

/-- Invariant established by a successful `LoadSpec` for every field. -/
def fieldLoaded (f : FieldSpec) : Prop :=
  0 < f.start ∧ 0 < f.length ∧ f.End = f.start + f.length - 1 ∧ f.ftype ≠ ""

instance (f : FieldSpec) : Decidable (fieldLoaded f) := by
  unfold fieldLoaded; infer_instance

instance {ε α : Type} [DecidableEq ε] [DecidableEq α] : DecidableEq (Except ε α) := fun
  | .ok a, .ok b =>
    match decEq a b with
    | isTrue h => isTrue (by rw [h])
    | isFalse h => isFalse (by intro hc; cases hc; exact h rfl)
  | .ok _, .error _ => isFalse (by intro hc; cases hc)
  | .error _, .ok _ => isFalse (by intro hc; cases hc)
  | .error e, .error f =>
    match decEq e f with
    | isTrue h => isTrue (by rw [h])
    | isFalse h => isFalse (by intro hc; cases hc; exact h rfl)

/- ### Digit and whitespace characters -/

theorem isDigit_not_space {c : Char} (h : isDigitChar c = true) : isGoSpace c = false := by
  simp only [isDigitChar, decide_eq_true_eq] at h
  obtain ⟨h1, h2⟩ := h
  simp only [isGoSpace, decide_eq_false_iff_not]
  intro hc
  rcases hc with h | h | h | h | h | h <;>
    (subst h; first | exact absurd h1 (by decide) | exact absurd h2 (by decide))

theorem digitVal_nonneg {c : Char} (h : isDigitChar c = true) : 0 ≤ digitVal c := by
  simp only [isDigitChar, decide_eq_true_eq] at h
  have : 48 ≤ c.toNat := h.1
  simp only [digitVal]
  omega

theorem digitVal_lt_ten {c : Char} (h : isDigitChar c = true) : digitVal c < 10 := by
  simp only [isDigitChar, decide_eq_true_eq] at h
  have : c.toNat ≤ 57 := h.2
  simp only [digitVal]
  omega

/- ### Decimal digit strings -/

/-- Exact (unwrapped) value of a digit string, most significant first. -/
def digitsVal (l : List Char) : Int :=
  l.foldl (fun a c => a * 10 + digitVal c) 0

theorem digitsVal_go (l : List Char) (a : Int) :
    l.foldl (fun a c => a * 10 + digitVal c) a = a * 10 ^ l.length + digitsVal l := by
  induction l generalizing a with
  | nil => simp [digitsVal]
  | cons c cs ih =>
    simp only [List.foldl_cons, List.length_cons, digitsVal]
    rw [ih, ih (a := 0 * 10 + digitVal c)]
    ring

theorem digitsVal_append (l₁ l₂ : List Char) :
    digitsVal (l₁ ++ l₂) = digitsVal l₁ * 10 ^ l₂.length + digitsVal l₂ := by
  simp only [digitsVal, List.foldl_append]
  rw [digitsVal_go]
  rfl

theorem digitsVal_replicate_zero_append (k : Nat) (l : List Char) :
    digitsVal (List.replicate k '0' ++ l) = digitsVal l := by
  induction k with
  | zero => simp
  | succ n ih =>
    rw [List.replicate_succ, List.cons_append]
    simp only [digitsVal, List.foldl_cons] at ih ⊢
    have : digitVal '0' = 0 := by decide
    simpa [this] using ih

theorem charOfNat_digit_isDigit {n : Nat} (h : n < 10) :
    isDigitChar (Char.ofNat (48 + n)) = true := by
  interval_cases n <;> decide

theorem charOfNat_digit_val {n : Nat} (h : n < 10) :
    digitVal (Char.ofNat (48 + n)) = (n : Int) := by
  interval_cases n <;> decide

theorem natDigits_all_digits (n : Nat) : (natDigits n).all isDigitChar = true := by
  induction n using Nat.strong_induction_on with
  | _ n ih =>
    rw [natDigits_eq]
    split
    · rename_i h
      simp only [List.all_cons, List.all_nil, Bool.and_true]
      exact charOfNat_digit_isDigit h
    · rename_i h
      rw [List.all_append]
      simp only [Bool.and_eq_true, List.all_cons, List.all_nil, Bool.and_true]
      constructor
      · exact ih (n / 10) (Nat.div_lt_self (by omega) (by omega))
      · exact charOfNat_digit_isDigit (Nat.mod_lt _ (by omega))

theorem natDigits_ne_nil (n : Nat) : natDigits n ≠ [] := by
  rw [natDigits_eq]
  split <;> simp

theorem digitsVal_natDigits (n : Nat) : digitsVal (natDigits n) = n := by
  induction n using Nat.strong_induction_on with
  | _ n ih =>
    rw [natDigits_eq]
    split
    · rename_i h
      simp only [digitsVal, List.foldl_cons, List.foldl_nil]
      rw [charOfNat_digit_val h]
      omega
    · rename_i h
      rw [digitsVal_append]
      rw [ih (n / 10) (Nat.div_lt_self (by omega) (by omega))]
      simp only [digitsVal, List.length_cons, List.length_nil, List.foldl_cons,
        List.foldl_nil]
      rw [charOfNat_digit_val (Nat.mod_lt _ (by omega))]
      push_cast
      omega

theorem natDigits_length_le {n : Nat} {k : Nat} (hk : 1 ≤ k) (h : n < 10 ^ k) :
    (natDigits n).length ≤ k := by
  induction k generalizing n with
  | zero => omega
  | succ k ih =>
    rw [natDigits_eq]
    split
    · simp
    · rename_i hn
      rw [List.length_append]
      simp only [List.length_cons, List.length_nil]
      have hk1 : 1 ≤ k := by
        by_contra hc
        have : k = 0 := by omega
        subst this
        simp at h
        omega
      have : n / 10 < 10 ^ k := by
        rw [Nat.div_lt_iff_lt_mul (by omega)]
        calc n < 10 ^ (k + 1) := h
        _ = 10 ^ k * 10 := by ring
      have := ih hk1 this
      omega

/- ### Trimming -/

theorem dropWhile_eq_self_of_head {p : Char → Bool} {l : List Char}
    (h : ∀ c, l.head? = some c → p c = false) : l.dropWhile p = l := by
  match l with
  | [] => rfl
  | c :: cs =>
    rw [List.dropWhile_cons]
    simp [h c rfl]

theorem goTrimSpace_eq_self {l : List Char}
    (hh : ∀ c, l.head? = some c → isGoSpace c = false)
    (hl : ∀ c, l.getLast? = some c → isGoSpace c = false) :
    goTrimSpace l = l := by
  unfold goTrimSpace
  rw [dropWhile_eq_self_of_head hh]
  rw [dropWhile_eq_self_of_head (by
    intro c hc
    apply hl
    rwa [List.head?_reverse] at hc)]
  exact List.reverse_reverse l

theorem goTrimSpace_of_all_nonspace {l : List Char}
    (h : ∀ c ∈ l, isGoSpace c = false) : goTrimSpace l = l := by
  apply goTrimSpace_eq_self
  · intro c hc
    exact h c (List.mem_of_mem_head? hc)
  · intro c hc
    exact h c (List.mem_of_getLast?_eq_some hc)

theorem dropWhile_replicate_space (n : Nat) (l : List Char) :
    List.dropWhile isGoSpace (List.replicate n ' ' ++ l) = List.dropWhile isGoSpace l := by
  induction n with
  | zero => simp
  | succ k ih =>
    rw [List.replicate_succ, List.cons_append, List.dropWhile_cons]
    simpa using ih

/-- Appending trailing spaces does not change the trimmed value. -/
theorem goTrimSpace_append_spaces (l : List Char) (n : Nat) :
    goTrimSpace (l ++ List.replicate n ' ') = goTrimSpace l := by
  unfold goTrimSpace
  rw [List.dropWhile_append]
  split
  · rename_i hemp
    simp only [List.isEmpty_iff] at hemp
    have hrep : List.dropWhile isGoSpace (List.replicate n ' ') = [] := by
      rw [List.dropWhile_eq_nil_iff]
      intro c hc
      rw [List.eq_of_mem_replicate hc]
      decide
    rw [hemp, hrep]
  · rw [List.reverse_append, List.reverse_replicate, dropWhile_replicate_space]

/- ### Two's-complement wrap -/

theorem wrap64_modeq (x : Int) : Int.ModEq (2 ^ 64) (wrap64 x) x := by
  unfold wrap64
  have h1 : Int.ModEq (2 ^ 64) ((x + 2 ^ 63) % 2 ^ 64) (x + 2 ^ 63) :=
    Int.emod_emod_of_dvd _ dvd_rfl
  calc (x + 2 ^ 63) % 2 ^ 64 - 2 ^ 63
      ≡ (x + 2 ^ 63) - 2 ^ 63 [ZMOD 2 ^ 64] := h1.sub_right _
    _ = x := by ring

theorem wrap64_congr {x y : Int} (h : Int.ModEq (2 ^ 64) x y) : wrap64 x = wrap64 y := by
  unfold wrap64
  have : (x + 2 ^ 63) % 2 ^ 64 = (y + 2 ^ 63) % 2 ^ 64 := h.add_right _
  rw [this]

theorem wrap64_eq_self {x : Int} (h0 : -(2 ^ 63) ≤ x) (h1 : x < 2 ^ 63) : wrap64 x = x := by
  unfold wrap64
  rw [Int.emod_eq_of_lt (by omega) (by omega)]
  ring

theorem wrap64_step (n : Int) (d : Int) :
    wrap64 (wrap64 n * 10 + d) = wrap64 (n * 10 + d) := by
  apply wrap64_congr
  exact ((wrap64_modeq n).mul_right 10).add_right d

/- ### atoiUnsafe -/

theorem atoiUnsafe_go_digits (l : List Char) :
    l.all isDigitChar = true →
    ∀ n : Int, atoiUnsafe.go (wrap64 n) l =
      .ok (wrap64 (l.foldl (fun a c => a * 10 + digitVal c) n)) := by
  induction l with
  | nil => intro _ n; simp [atoiUnsafe.go]
  | cons c cs ih =>
    intro hall n
    simp only [List.all_cons, Bool.and_eq_true] at hall
    obtain ⟨hc, hcs⟩ := hall
    rw [atoiUnsafe.go]
    have hnot : ¬(c < '0' ∨ '9' < c) := by
      simp only [isDigitChar, decide_eq_true_eq] at hc
      push_neg
      exact ⟨hc.1, hc.2⟩
    rw [if_neg hnot]
    rw [wrap64_step]
    rw [ih hcs (n * 10 + digitVal c)]
    simp

/-- Value of `atoiUnsafe` on an all-digit byte string: the exact decimal
value reduced by the 64-bit two's-complement wrap, never an error. -/
theorem atoiUnsafe_digits (l : List Char) (h : l.all isDigitChar = true) :
    atoiUnsafe l = .ok (wrap64 (digitsVal l)) := by
  unfold atoiUnsafe
  have h0 : (0 : Int) = wrap64 0 := by decide
  rw [h0, atoiUnsafe_go_digits l h 0]
  rfl

theorem digitsVal_nonneg (l : List Char) (h : l.all isDigitChar = true) :
    0 ≤ digitsVal l := by
  induction l using List.reverseRecOn with
  | nil => simp [digitsVal]
  | append_singleton xs c ih =>
    simp only [List.all_append, List.all_cons, List.all_nil, Bool.and_eq_true,
      Bool.and_true] at h
    rw [digitsVal_append]
    have h1 := ih h.1
    have h2 := digitVal_nonneg h.2
    have h3 : (0 : Int) ≤ digitsVal xs * 10 ^ ([c].length) := by positivity
    simp only [digitsVal, List.foldl_cons, List.foldl_nil, List.length_cons,
      List.length_nil] at *
    omega

/-- Round trip of the decimal digit functions: parsing the zero-padded
rendering of `n` recovers `n` whenever `n` is below `2 ^ 63`. -/
theorem atoiUnsafe_pad_natDigits {n : Nat} (hn : (n : Int) < 2 ^ 63) (k : Nat) :
    atoiUnsafe (List.replicate k '0' ++ natDigits n) = .ok (n : Int) := by
  have hall : (List.replicate k '0' ++ natDigits n).all isDigitChar = true := by
    rw [List.all_append]
    simp only [Bool.and_eq_true]
    refine ⟨?_, natDigits_all_digits n⟩
    rw [List.all_eq_true]
    intro c hc
    rw [List.eq_of_mem_replicate hc]
    decide
  rw [atoiUnsafe_digits _ hall, digitsVal_replicate_zero_append, digitsVal_natDigits]
  rw [wrap64_eq_self (by omega) hn]

/- ### Zero-padded rendering -/

theorem goSprintfZeroPad_nonneg {n : Int} (w : Int) (hn : 0 ≤ n) :
    goSprintfZeroPad w n =
      List.replicate (w.toNat - (natDigits n.toNat).length) '0' ++ natDigits n.toNat := by
  unfold goSprintfZeroPad goIntRepr
  rw [if_neg (not_lt.mpr hn)]
  simp only
  split
  · rename_i hge
    have : w.toNat - (natDigits n.toNat).length = 0 := by omega
    rw [this]
    simp
  · rw [if_neg (not_lt.mpr hn)]

theorem goSprintfZeroPad_nonneg_length {n w : Int} (hn : 0 ≤ n)
    (hd : ((natDigits n.toNat).length : Int) ≤ w) :
    (goSprintfZeroPad w n).length = w.toNat := by
  rw [goSprintfZeroPad_nonneg w hn]
  have h1 := natDigits_ne_nil n.toNat
  have h2 : (natDigits n.toNat).length ≤ w.toNat := by omega
  simp only [List.length_append, List.length_replicate]
  omega

theorem goSprintfZeroPad_nonneg_digits {n : Int} (w : Int) (hn : 0 ≤ n) :
    (goSprintfZeroPad w n).all isDigitChar = true := by
  rw [goSprintfZeroPad_nonneg w hn]
  rw [List.all_append]
  simp only [Bool.and_eq_true]
  constructor
  · rw [List.all_eq_true]
    intro c hc
    rw [List.eq_of_mem_replicate hc]
    decide
  · exact natDigits_all_digits n.toNat

/- ### Load-time validation -/

theorem loadSpecGo_ok_iff (fields : CNABSpec)
    (hpos : ∀ f ∈ fields, 0 < f.start ∧ 0 < f.length) :
    (∃ s, LoadSpec.go fields = .ok s) ↔ ∀ f ∈ fields, f.ftype ≠ "" := by
  induction fields with
  | nil => simp [LoadSpec.go]
  | cons f rest ih =>
    have hf := hpos f (List.mem_cons_self f rest)
    have hrest := fun g hg => hpos g (List.mem_cons_of_mem f hg)
    simp only [LoadSpec.go]
    have hs : ({ f with End := f.start + f.length - 1 } : FieldSpec).start = f.start := rfl
    have hl : ({ f with End := f.start + f.length - 1 } : FieldSpec).length = f.length := rfl
    have ht : ({ f with End := f.start + f.length - 1 } : FieldSpec).ftype = f.ftype := rfl
    rw [hs, hl, ht, if_neg (by omega)]
    by_cases hty : f.ftype = ""
    · rw [if_pos hty]
      simp [hty]
    · rw [if_neg hty]
      cases hgo : LoadSpec.go rest with
      | ok s =>
        simp only [List.mem_cons]
        constructor
        · rintro -
          rintro g (rfl | hg)
          · exact hty
          · exact ((ih hrest).mp ⟨s, hgo⟩) g hg
        · rintro -
          exact ⟨_, rfl⟩
      | error e =>
        simp only [List.mem_cons]
        constructor
        · rintro ⟨s, hs⟩
          cases hs
        · intro hall
          have : ∀ g ∈ rest, g.ftype ≠ "" := fun g hg => hall g (Or.inr hg)
          obtain ⟨s, hgo'⟩ := (ih hrest).mpr this
          rw [hgo] at hgo'
          cases hgo'

theorem loadSpec_fieldLoaded {fields spec : CNABSpec}
    (h : LoadSpec false fields = .ok spec) : ∀ f ∈ spec, fieldLoaded f := by
  unfold LoadSpec at h
  rw [if_neg (by simp)] at h
  induction fields generalizing spec with
  | nil =>
    simp only [LoadSpec.go, Except.ok.injEq] at h
    subst h
    simp
  | cons f rest ih =>
    simp only [LoadSpec.go] at h
    split at h
    · cases h
    · split at h
      · cases h
      · rename_i hpos hty
        have hpos' : ¬(f.start ≤ 0 ∨ f.length ≤ 0) := hpos
        have hty' : ¬(f.ftype = "") := hty
        cases hgo : LoadSpec.go rest with
        | ok s =>
          rw [hgo] at h
          simp only [Except.ok.injEq] at h
          subst h
          intro g hg
          rcases List.mem_cons.mp hg with rfl | hg'
          · exact ⟨by show 0 < f.start; omega, by show 0 < f.length; omega, rfl,
              by show f.ftype ≠ ""; exact hty'⟩
          · exact ih hgo g hg'
        | error e =>
          rw [hgo] at h
          cases h

/- ### Buffer segments -/

/-- Read `len` bytes of `arr` starting at `lo` (the slice
`arr[lo : lo+len]`). -/
def readSeg (arr : List Char) (lo len : Nat) : List Char :=
  (arr.drop lo).take len

theorem writeSeg_length {arr : List Char} {lo : Nat} {s : List Char}
    (h : lo + s.length ≤ arr.length) : (writeSeg arr lo s).length = arr.length := by
  unfold writeSeg
  simp only [List.length_append, List.length_take, List.length_drop]
  omega

theorem writeSeg_getElem? {arr : List Char} {lo : Nat} {s : List Char}
    (h : lo + s.length ≤ arr.length) (i : Nat) :
    (writeSeg arr lo s)[i]? =
      if i < lo then arr[i]?
      else if i < lo + s.length then s[i - lo]?
      else arr[i]? := by
  unfold writeSeg
  have hTL : (arr.take lo).length = lo := by
    rw [List.length_take]
    exact min_eq_left (by omega)
  have hTLS : (arr.take lo ++ s).length = lo + s.length := by
    rw [List.length_append, hTL]
  by_cases h1 : i < lo
  · rw [List.getElem?_append_left (by omega), List.getElem?_append_left (by omega),
      List.getElem?_take, if_pos h1, if_pos h1]
  · rw [if_neg h1]
    by_cases h2 : i < lo + s.length
    · rw [if_pos h2]
      rw [List.getElem?_append_left (by omega), List.getElem?_append_right (by omega),
        hTL]
    · rw [if_neg h2]
      rw [List.getElem?_append_right (by omega), hTLS, List.getElem?_drop]
      congr 1
      omega

theorem readSeg_getElem? (arr : List Char) (lo len i : Nat) :
    (readSeg arr lo len)[i]? = if i < len then arr[lo + i]? else none := by
  unfold readSeg
  rw [List.getElem?_take]
  split
  · rw [List.getElem?_drop]
  · rfl

theorem readSeg_writeSeg_self {arr : List Char} {lo : Nat} {s : List Char}
    (h : lo + s.length ≤ arr.length) :
    readSeg (writeSeg arr lo s) lo s.length = s := by
  apply List.ext_getElem?
  intro i
  rw [readSeg_getElem?]
  by_cases hi : i < s.length
  · rw [if_pos hi, writeSeg_getElem? h]
    rw [if_neg (by omega), if_pos (by omega)]
    congr 1
    omega
  · rw [if_neg hi, List.getElem?_eq_none (by omega)]

theorem readSeg_writeSeg_disjoint {arr : List Char} {lo : Nat} {s : List Char}
    {lo' len' : Nat} (h : lo + s.length ≤ arr.length)
    (hdisj : lo' + len' ≤ lo ∨ lo + s.length ≤ lo') :
    readSeg (writeSeg arr lo s) lo' len' = readSeg arr lo' len' := by
  apply List.ext_getElem?
  intro i
  rw [readSeg_getElem?, readSeg_getElem?]
  by_cases hi : i < len'
  · rw [if_pos hi, if_pos hi, writeSeg_getElem? h]
    rcases hdisj with hd | hd
    · rw [if_pos (by omega)]
    · rw [if_neg (by omega), if_neg (by omega)]
  · rw [if_neg hi, if_neg hi]

theorem readSeg_take {arr : List Char} {tl lo len : Nat} (h : lo + len ≤ tl) :
    readSeg (arr.take tl) lo len = readSeg arr lo len := by
  apply List.ext_getElem?
  intro i
  rw [readSeg_getElem?, readSeg_getElem?]
  by_cases hi : i < len
  · rw [if_pos hi, if_pos hi, List.getElem?_take, if_pos (by omega)]
  · rw [if_neg hi, if_neg hi]

/- ### Per-field behaviour of the parse loop -/

/-- Success test on a `GoResult`. -/
def GoResult.isOk {α : Type} : GoResult α → Bool
  | .ok _ => true
  | _ => false

theorem parseRecord_no_panic {record : Bytes} {f : FieldSpec} (m : RecordMap)
    (hf : fieldLoaded f) : parseRecord record f m ≠ .panicked := by
  obtain ⟨h1, h2, h3, _⟩ := hf
  unfold parseRecord
  split
  · simp
  · rename_i hb
    rw [if_pos (by omega)]
    split <;> simp

theorem parseRecord_ok_shape {record : Bytes} {f : FieldSpec} {m x : RecordMap}
    (h : parseRecord record f m = .ok x) :
    ∃ v, x = minsert f.name v m ∧
      parseFieldValue f
        ((record.drop (f.start - 1).toNat).take (f.End - (f.start - 1)).toNat) = .ok v ∧
      ∀ m', parseRecord record f m' = .ok (minsert f.name v m') := by
  unfold parseRecord at h
  split at h
  · cases h
  · split at h
    · rename_i hbound
      cases hv : parseFieldValue f
          ((record.drop (f.start - 1).toNat).take (f.End - (f.start - 1)).toNat) with
      | error e => rw [hv] at h; cases h
      | ok v =>
        rw [hv] at h
        cases h
        refine ⟨v, rfl, rfl, fun m' => ?_⟩
        unfold parseRecord
        rw [if_neg (by assumption), if_pos hbound]
        rw [hv]
    · cases h

theorem parseRecord_err_of_decode_err {record : Bytes} {f : FieldSpec} {e : CNABError}
    (m : RecordMap)
    (hb : ¬ f.End > (record.length : Int)) (h0 : 0 ≤ f.start - 1)
    (h1 : f.start - 1 ≤ f.End)
    (he : parseFieldValue f
      ((record.drop (f.start - 1).toNat).take (f.End - (f.start - 1)).toNat) = .error e) :
    parseRecord record f m = .err (.failedToParseField f.name e) := by
  unfold parseRecord
  rw [if_neg hb, if_pos (by omega), he]

/- ### Per-field behaviour of the pack loop -/

/-- Capacity of the backing array `PackRecord` works with: the pooled
array, or a fresh exactly-sized one when the pool is short. -/
def packCap (spec : CNABSpec) (pool : List Char) : Nat :=
  let tl := (totalLength spec).toNat
  if pool.length < tl then tl else pool.length

/-- Condition under which the pack loop processes field `f` successfully:
the value is present, encodes, fits the declared length, and the copy
window fits the backing capacity. -/
def packFieldOk (data : RecordMap) (cap : Nat) (f : FieldSpec) : Prop :=
  ∃ v s, mlookup data f.name = some v ∧ formatFieldValue f v = .ok s ∧
    ¬((s.length : Int) > f.length) ∧ 0 ≤ f.start - 1 ∧ f.start - 1 ≤ f.End ∧
    f.End ≤ (cap : Int)

theorem packGo_step_ok {data : RecordMap} {f : FieldSpec} {arr : List Char}
    (tl : Nat) (rest : CNABSpec)
    (hok : packFieldOk data arr.length f) :
    ∃ s, PackRecord.go false data tl (f :: rest) arr =
      PackRecord.go false data tl rest
        (writeSeg arr (f.start - 1).toNat
          ((s ++ List.replicate (f.length.toNat - s.length) ' ').take
            (f.End - (f.start - 1)).toNat)) ∧
      (writeSeg arr (f.start - 1).toNat
        ((s ++ List.replicate (f.length.toNat - s.length) ' ').take
          (f.End - (f.start - 1)).toNat)).length = arr.length ∧
      mlookup data f.name ≠ none ∧
      (∃ v, mlookup data f.name = some v ∧ formatFieldValue f v = .ok s ∧
        ¬((s.length : Int) > f.length)) := by
  obtain ⟨v, s, hl, hfmt, hlen, h0, h1, h2⟩ := hok
  have hwlen : (writeSeg arr (f.start - 1).toNat
      ((s ++ List.replicate (f.length.toNat - s.length) ' ').take
        (f.End - (f.start - 1)).toNat)).length = arr.length := by
    apply writeSeg_length
    have htake : ((s ++ List.replicate (f.length.toNat - s.length) ' ').take
        (f.End - (f.start - 1)).toNat).length ≤ (f.End - (f.start - 1)).toNat := by
      simp [List.length_take]
    omega
  refine ⟨s, ?_, hwlen, by rw [hl]; simp, v, hl, hfmt, hlen⟩
  simp only [PackRecord.go, hl, hfmt]
  rw [if_neg (by simp), if_neg hlen, if_pos ⟨h0, h1, h2⟩]

theorem packGo_no_panic {data : RecordMap} (ctx : Bool) (tl : Nat) :
    ∀ (fields : CNABSpec) (arr : List Char),
      (∀ f ∈ fields, fieldLoaded f ∧ f.End ≤ (tl : Int)) →
      tl ≤ arr.length →
      (PackRecord.go ctx data tl fields arr).1 ≠ .panicked := by
  intro fields
  induction fields with
  | nil =>
    intro arr _ _
    simp [PackRecord.go]
  | cons f rest ih =>
    intro arr hflds harr
    obtain ⟨⟨hs, hl, he, -⟩, hend⟩ := hflds f (List.mem_cons_self f rest)
    simp only [PackRecord.go]
    split
    · simp
    · cases hlk : mlookup data f.name with
      | none => simp [hlk]
      | some v =>
        cases hfmt : formatFieldValue f v with
        | error e => simp [hlk, hfmt]
        | ok s =>
          simp only [hlk, hfmt]
          split
          · simp
          · rename_i hlen
            rw [if_pos (by refine ⟨by omega, by omega, by omega⟩)]
            apply ih
            · exact fun g hg => hflds g (List.mem_cons_of_mem f hg)
            · rw [writeSeg_length]
              · exact harr
              · have htake : ((s ++ List.replicate (f.length.toNat - s.length) ' ').take
                    (f.End - (f.start - 1)).toNat).length ≤ (f.End - (f.start - 1)).toNat := by
                  simp [List.length_take]
                omega

theorem packRecord_arr0_length (spec : CNABSpec) (pool : List Char) :
    (if pool.length < (totalLength spec).toNat
      then List.replicate (totalLength spec).toNat (Char.ofNat 0)
      else pool).length = packCap spec pool := by
  unfold packCap
  split
  · rename_i h
    rw [List.length_replicate]
    show (totalLength spec).toNat =
      if pool.length < (totalLength spec).toNat then (totalLength spec).toNat else pool.length
    rw [if_pos h]
  · rename_i h
    show pool.length =
      if pool.length < (totalLength spec).toNat then (totalLength spec).toNat else pool.length
    rw [if_neg h]

theorem parseGo_no_panic {record : Bytes} (ctx : Bool) :
    ∀ (fields : CNABSpec) (m : RecordMap),
      (∀ f ∈ fields, fieldLoaded f) →
      ParseRecord.go ctx record fields m ≠ .panicked := by
  intro fields
  induction fields with
  | nil => intro m _; simp [ParseRecord.go]
  | cons f rest ih =>
    intro m hflds
    simp only [ParseRecord.go]
    split
    · simp
    · cases hpr : parseRecord record f m with
      | ok m' => exact ih m' (fun g hg => hflds g (List.mem_cons_of_mem f hg))
      | err e => simp
      | panicked =>
        exact absurd hpr (parseRecord_no_panic m (hflds f (List.mem_cons_self f rest)))

theorem parseGo_wrap {record : Bytes} {f : FieldSpec} {e : CNABError} (post : CNABSpec)
    (hb : ¬ f.End > (record.length : Int)) (h0 : 0 ≤ f.start - 1)
    (h1 : f.start - 1 ≤ f.End)
    (he : parseFieldValue f
      ((record.drop (f.start - 1).toNat).take (f.End - (f.start - 1)).toNat) = .error e) :
    ∀ (pre : CNABSpec) (m : RecordMap),
      (∀ g ∈ pre, (parseRecord record g []).isOk = true) →
      ParseRecord.go false record (pre ++ f :: post) m =
        .err (.failedToParseField f.name e) := by
  intro pre
  induction pre with
  | nil =>
    intro m _
    simp only [List.nil_append, ParseRecord.go]
    rw [if_neg (by simp)]
    rw [parseRecord_err_of_decode_err m hb h0 h1 he]
  | cons g pre' ih =>
    intro m hpre
    have hg := hpre g (List.mem_cons_self g pre')
    cases hx : parseRecord record g [] with
    | ok x =>
      obtain ⟨v, -, -, hall⟩ := parseRecord_ok_shape hx
      simp only [List.cons_append, ParseRecord.go]
      rw [if_neg (by simp), hall m]
      exact ih (minsert g.name v m) (fun g' hg' => hpre g' (List.mem_cons_of_mem g hg'))
    | err e' => rw [hx] at hg; cases hg
    | panicked => rw [hx] at hg; cases hg

theorem packGo_wrap {data : RecordMap} {f : FieldSpec} {e : CNABError} {v : GoValue}
    (post : CNABSpec) (tl : Nat)
    (hl : mlookup data f.name = some v) (hfmt : formatFieldValue f v = .error e) :
    ∀ (pre : CNABSpec) (arr : List Char),
      (∀ g ∈ pre, packFieldOk data arr.length g) →
      (PackRecord.go false data tl (pre ++ f :: post) arr).1 =
        .err (.failedToFormatField e) := by
  intro pre
  induction pre with
  | nil =>
    intro arr _
    simp only [List.nil_append]
    simp only [PackRecord.go, hl, hfmt]
    rw [if_neg (by simp)]
  | cons g pre' ih =>
    intro arr hpre
    obtain ⟨s, hstep, hlenpres, -, -⟩ :=
      packGo_step_ok tl (pre' ++ f :: post) (hpre g (List.mem_cons_self g pre'))
    rw [List.cons_append, hstep]
    apply ih
    intro g' hg'
    rw [hlenpres]
    exact hpre g' (List.mem_cons_of_mem g hg')

/- ### Date layout round trip -/

/-- Width in bytes of one layout chunk, both rendered and parsed. -/
def tokWidth : LTok → Nat
  | .year => 4
  | .month => 2
  | .day => 2
  | .lit _ => 1

/-- General one-step equation of `scanLayout`. -/
theorem scanLayout_cons (c : Char) (rest : List Char) :
    scanLayout (c :: rest) =
      if c = '2' ∧ rest.take 3 = ['0', '0', '6'] then .year :: scanLayout (rest.drop 3)
      else if c = '0' ∧ rest.take 1 = ['1'] then .month :: scanLayout (rest.drop 1)
      else if c = '0' ∧ rest.take 1 = ['2'] then .day :: scanLayout (rest.drop 1)
      else .lit c :: scanLayout rest := by
  have base : scanLayout (c :: rest) =
      (if c = '2' ∧ rest.take 3 = ['0', '0', '6'] then
        .year :: scanLayoutF (rest.length + 1) (rest.drop 3)
      else if c = '0' ∧ rest.take 1 = ['1'] then
        .month :: scanLayoutF (rest.length + 1) (rest.drop 1)
      else if c = '0' ∧ rest.take 1 = ['2'] then
        .day :: scanLayoutF (rest.length + 1) (rest.drop 1)
      else .lit c :: scanLayoutF (rest.length + 1) rest) := rfl
  rw [base]
  have hd : ∀ k : Nat, (rest.drop k).length < rest.length + 1 := by
    intro k
    simp only [List.length_drop]
    omega
  split
  · rw [@scanLayoutF_congr (rest.length + 1) ((rest.drop 3).length + 1) (rest.drop 3)
      (hd 3) (by omega)]
    rfl
  · split
    · rw [@scanLayoutF_congr (rest.length + 1) ((rest.drop 1).length + 1) (rest.drop 1)
        (hd 1) (by omega)]
      rfl
    · split
      · rw [@scanLayoutF_congr (rest.length + 1) ((rest.drop 1).length + 1) (rest.drop 1)
          (hd 1) (by omega)]
        rfl
      · rfl

theorem scanLayout_width_aux : ∀ (n : Nat) (l : List Char), l.length = n →
    ((scanLayout l).map tokWidth).sum = l.length := by
  intro n
  induction n using Nat.strong_induction_on with
  | _ n ih =>
    intro l hl
    match l with
    | [] => rfl
    | c :: rest =>
      have hn : rest.length + 1 = n := by simpa using hl
      rw [scanLayout_cons]
      split
      · rename_i h
        have h3 : rest.length ≥ 3 := by
          have h2 := congrArg List.length h.2
          simp only [List.length_take, List.length_cons, List.length_nil] at h2
          omega
        simp only [List.map_cons, List.sum_cons, tokWidth]
        rw [ih (rest.drop 3).length (by simp [List.length_drop]; omega) _ rfl]
        simp only [List.length_drop, List.length_cons]
        omega
      · split
        · rename_i h
          have h1 : rest.length ≥ 1 := by
            have h2 := congrArg List.length h.2
            simp only [List.length_take, List.length_cons, List.length_nil] at h2
            omega
          simp only [List.map_cons, List.sum_cons, tokWidth]
          rw [ih (rest.drop 1).length (by simp [List.length_drop]; omega) _ rfl]
          simp only [List.length_drop, List.length_cons]
          omega
        · split
          · rename_i h
            have h1 : rest.length ≥ 1 := by
              have h2 := congrArg List.length h.2
              simp only [List.length_take, List.length_cons, List.length_nil] at h2
              omega
            simp only [List.map_cons, List.sum_cons, tokWidth]
            rw [ih (rest.drop 1).length (by simp [List.length_drop]; omega) _ rfl]
            simp only [List.length_drop, List.length_cons]
            omega
          · simp only [List.map_cons, List.sum_cons, tokWidth]
            rw [ih rest.length (by omega) _ rfl]
            omega

/-- The chunks of a layout exactly cover it. -/
theorem scanLayout_width (l : List Char) :
    ((scanLayout l).map tokWidth).sum = l.length :=
  scanLayout_width_aux l.length l rfl

theorem padNum_length {w n : Nat} (hw : 1 ≤ w) (h : n < 10 ^ w) :
    (padNum w n).length = w := by
  unfold padNum
  have := natDigits_length_le hw h
  simp only [List.length_append, List.length_replicate]
  omega

theorem padNum_all_digits (w n : Nat) : (padNum w n).all isDigitChar = true := by
  unfold padNum
  rw [List.all_append]
  simp only [Bool.and_eq_true]
  constructor
  · rw [List.all_eq_true]
    intro c hc
    rw [List.eq_of_mem_replicate hc]
    decide
  · exact natDigits_all_digits n

theorem padNum_digitsVal (w n : Nat) : digitsVal (padNum w n) = n := by
  unfold padNum
  rw [digitsVal_replicate_zero_append, digitsVal_natDigits]

theorem getFixedNum_pad {w n : Nat} (hw : 1 ≤ w) (h : n < 10 ^ w) (rest : List Char) :
    getFixedNum w (padNum w n ++ rest) = some ((n : Int), rest) := by
  unfold getFixedNum
  have hlen := padNum_length hw h
  have htake := List.take_left (padNum w n) rest
  rw [hlen] at htake
  have hdrop := List.drop_left (padNum w n) rest
  rw [hlen] at hdrop
  rw [htake, hdrop]
  rw [if_pos ⟨hlen, padNum_all_digits w n⟩]
  have : (padNum w n).foldl (fun a c => a * 10 + digitVal c) 0 = digitsVal (padNum w n) := rfl
  rw [this, padNum_digitsVal]

/-- Effect of the chunk loop on the accumulated components. -/
def applyToks (d : GoDate) (toks : List LTok) (st : Int × Int × Int) : Int × Int × Int :=
  toks.foldl (fun s t =>
    match t with
    | .year => (d.year, s.2.1, s.2.2)
    | .month => (s.1, d.month, s.2.2)
    | .day => (s.1, s.2.1, d.day)
    | .lit _ => s) st

/-- Parsing the rendering of a chunk list consumes it exactly and applies
each component update, for dates whose components fit the chunk widths. -/
theorem parseToks_render (d : GoDate)
    (hy0 : 0 ≤ d.year) (hy1 : d.year ≤ 9999)
    (hm0 : 0 ≤ d.month) (hm1 : d.month ≤ 99)
    (hd0 : 0 ≤ d.day) (hd1 : d.day ≤ 99) :
    ∀ (toks : List LTok) (st : Int × Int × Int),
      parseToks toks (toks.flatMap (renderTok d)) st = some (applyToks d toks st) := by
  intro toks
  induction toks with
  | nil => intro st; rfl
  | cons t ts ih =>
    intro st
    obtain ⟨y0, m0, d0⟩ := st
    match t with
    | .year =>
      simp only [List.flatMap_cons, renderTok, parseToks]
      have h4 : d.year.toNat < 10 ^ 4 := by omega
      rw [getFixedNum_pad (by omega) h4]
      rw [show ((d.year.toNat : Int)) = d.year by omega]
      show parseToks ts (ts.flatMap (renderTok d)) (d.year, m0, d0) = _
      rw [ih]
      rfl
    | .month =>
      simp only [List.flatMap_cons, renderTok, parseToks]
      have h2 : d.month.toNat < 10 ^ 2 := by omega
      rw [getFixedNum_pad (by omega) h2]
      rw [show ((d.month.toNat : Int)) = d.month by omega]
      show parseToks ts (ts.flatMap (renderTok d)) (y0, d.month, d0) = _
      rw [ih]
      rfl
    | .day =>
      simp only [List.flatMap_cons, renderTok, parseToks]
      have h2 : d.day.toNat < 10 ^ 2 := by omega
      rw [getFixedNum_pad (by omega) h2]
      rw [show ((d.day.toNat : Int)) = d.day by omega]
      show parseToks ts (ts.flatMap (renderTok d)) (y0, m0, d.day) = _
      rw [ih]
      rfl
    | .lit c =>
      simp only [List.flatMap_cons, renderTok, List.cons_append, List.nil_append, parseToks]
      rw [if_pos trivial]
      rw [ih]
      rfl

theorem applyToks_notmem_year {d : GoDate} {toks : List LTok} (h : .year ∉ toks) :
    ∀ st, (applyToks d toks st).1 = st.1 := by
  induction toks with
  | nil => intro st; rfl
  | cons u us ihu =>
    intro st
    have hu : u ≠ .year := fun hc => h (hc ▸ List.mem_cons_self u us)
    have hus : LTok.year ∉ us := fun hc => h (List.mem_cons_of_mem u hc)
    match u with
    | .year => exact absurd rfl hu
    | .month => exact ihu hus _
    | .day => exact ihu hus _
    | .lit c => exact ihu hus _

theorem applyToks_notmem_month {d : GoDate} {toks : List LTok} (h : .month ∉ toks) :
    ∀ st, (applyToks d toks st).2.1 = st.2.1 := by
  induction toks with
  | nil => intro st; rfl
  | cons u us ihu =>
    intro st
    have hu : u ≠ .month := fun hc => h (hc ▸ List.mem_cons_self u us)
    have hus : LTok.month ∉ us := fun hc => h (List.mem_cons_of_mem u hc)
    match u with
    | .month => exact absurd rfl hu
    | .year => exact ihu hus _
    | .day => exact ihu hus _
    | .lit c => exact ihu hus _

theorem applyToks_notmem_day {d : GoDate} {toks : List LTok} (h : .day ∉ toks) :
    ∀ st, (applyToks d toks st).2.2 = st.2.2 := by
  induction toks with
  | nil => intro st; rfl
  | cons u us ihu =>
    intro st
    have hu : u ≠ .day := fun hc => h (hc ▸ List.mem_cons_self u us)
    have hus : LTok.day ∉ us := fun hc => h (List.mem_cons_of_mem u hc)
    match u with
    | .day => exact absurd rfl hu
    | .year => exact ihu hus _
    | .month => exact ihu hus _
    | .lit c => exact ihu hus _

theorem applyToks_year {d : GoDate} {toks : List LTok} (h : .year ∈ toks) :
    ∀ st, (applyToks d toks st).1 = d.year := by
  induction toks with
  | nil => cases h
  | cons t ts ih =>
    intro st
    by_cases hts : LTok.year ∈ ts
    · match t with
      | .year => exact ih hts _
      | .month => exact ih hts _
      | .day => exact ih hts _
      | .lit c => exact ih hts _
    · have ht : t = .year := by
        rcases List.mem_cons.mp h with rfl | h'
        · rfl
        · exact absurd h' hts
      subst ht
      exact applyToks_notmem_year hts _

theorem applyToks_month {d : GoDate} {toks : List LTok} (h : .month ∈ toks) :
    ∀ st, (applyToks d toks st).2.1 = d.month := by
  induction toks with
  | nil => cases h
  | cons t ts ih =>
    intro st
    by_cases hts : LTok.month ∈ ts
    · match t with
      | .year => exact ih hts _
      | .month => exact ih hts _
      | .day => exact ih hts _
      | .lit c => exact ih hts _
    · have ht : t = .month := by
        rcases List.mem_cons.mp h with rfl | h'
        · rfl
        · exact absurd h' hts
      subst ht
      exact applyToks_notmem_month hts _

theorem applyToks_day {d : GoDate} {toks : List LTok} (h : .day ∈ toks) :
    ∀ st, (applyToks d toks st).2.2 = d.day := by
  induction toks with
  | nil => cases h
  | cons t ts ih =>
    intro st
    by_cases hts : LTok.day ∈ ts
    · match t with
      | .year => exact ih hts _
      | .month => exact ih hts _
      | .day => exact ih hts _
      | .lit c => exact ih hts _
    · have ht : t = .day := by
        rcases List.mem_cons.mp h with rfl | h'
        · rfl
        · exact absurd h' hts
      subst ht
      exact applyToks_notmem_day hts _

theorem matchPat_some_length {pat l r : List Char} (h : matchPat pat l = some r) :
    l.length = pat.length + r.length := by
  induction pat generalizing l r with
  | nil => simp only [matchPat, Option.some.injEq] at h; subst h; simp
  | cons p ps ih =>
    match l with
    | [] => simp [matchPat] at h
    | c :: cs =>
      simp only [matchPat] at h
      split at h
      · have := ih h
        simp only [List.length_cons]
        omega
      · cases h

theorem replaceAll_length_aux : ∀ (n : Nat) (s pat rep : List Char), s.length = n →
    pat ≠ [] → pat.length = rep.length → (replaceAll s pat rep).length = s.length := by
  intro n
  induction n using Nat.strong_induction_on with
  | _ n ih =>
    intro s pat rep hl hpat hlen
    match s with
    | [] => rw [replaceAll_s_nil]
    | c :: cs =>
      match pat with
      | [] => exact absurd rfl hpat
      | p :: ps =>
        rw [replaceAll_cons]
        cases hm : matchPat (p :: ps) (c :: cs) with
        | some rest =>
          have hr := matchPat_some_length hm
          have hrlt := matchPat_length hm
          simp only [List.length_append]
          rw [ih rest.length (by omega) rest (p :: ps) rep rfl hpat hlen]
          omega
        | none =>
          simp only [List.length_cons]
          rw [ih cs.length (by simp only [List.length_cons] at hl; omega) cs (p :: ps)
            rep rfl hpat hlen]

/-- The `YYYY`/`MM`/`DD` substitutions preserve the format length. -/
theorem convertDateFormat_length (format : List Char) :
    (convertDateFormat format).length = format.length := by
  unfold convertDateFormat
  have hY := fun s : List Char =>
    replaceAll_length_aux s.length s ['Y', 'Y', 'Y', 'Y'] ['2', '0', '0', '6'] rfl
      (by simp) rfl
  have hM := fun s : List Char =>
    replaceAll_length_aux s.length s ['M', 'M'] ['0', '1'] rfl (by simp) rfl
  have hD := fun s : List Char =>
    replaceAll_length_aux s.length s ['D', 'D'] ['0', '2'] rfl (by simp) rfl
  rw [hD, hM, hY]

theorem renderTok_length {d : GoDate}
    (hy0 : 0 ≤ d.year) (hy1 : d.year ≤ 9999)
    (hm0 : 0 ≤ d.month) (hm1 : d.month ≤ 99)
    (hd0 : 0 ≤ d.day) (hd1 : d.day ≤ 99) (t : LTok) :
    (renderTok d t).length = tokWidth t := by
  match t with
  | .year => exact padNum_length (by omega) (by omega)
  | .month => exact padNum_length (by omega) (by omega)
  | .day => exact padNum_length (by omega) (by omega)
  | .lit c => rfl

theorem goTimeFormat_length {L : List Char} {d : GoDate}
    (hy0 : 0 ≤ d.year) (hy1 : d.year ≤ 9999)
    (hm0 : 0 ≤ d.month) (hm1 : d.month ≤ 99)
    (hd0 : 0 ≤ d.day) (hd1 : d.day ≤ 99) :
    (goTimeFormat L d).length = L.length := by
  unfold goTimeFormat
  rw [List.length_flatMap]
  have hmap : List.map (List.length ∘ renderTok d) (scanLayout L) =
      (scanLayout L).map tokWidth :=
    List.map_congr_left (fun t _ => renderTok_length hy0 hy1 hm0 hm1 hd0 hd1 t)
  rw [hmap]
  exact scanLayout_width L

theorem goTimeFormat_mem {L : List Char} {d : GoDate} {c : Char}
    (h : c ∈ goTimeFormat L d) :
    isDigitChar c = true ∨ .lit c ∈ scanLayout L := by
  unfold goTimeFormat at h
  rw [List.mem_flatMap] at h
  obtain ⟨t, ht, hc⟩ := h
  match t with
  | .year =>
    left
    exact List.all_eq_true.mp (padNum_all_digits 4 d.year.toNat) c hc
  | .month =>
    left
    exact List.all_eq_true.mp (padNum_all_digits 2 d.month.toNat) c hc
  | .day =>
    left
    exact List.all_eq_true.mp (padNum_all_digits 2 d.day.toNat) c hc
  | .lit c' =>
    right
    have : c = c' := by simpa [renderTok] using hc
    subst this
    exact ht

/-- Canonical layout: the year, month and day chunks all occur, and every
literal chunk is a non-digit, non-whitespace character (so the layout is
faithful to Go's scanner and survives trimming). -/
def canonicalLayout (L : List Char) : Prop :=
  .year ∈ scanLayout L ∧ .month ∈ scanLayout L ∧ .day ∈ scanLayout L ∧
  (scanLayout L).all (fun t =>
    match t with
    | .lit c => !(isDigitChar c) && !(isGoSpace c)
    | _ => true) = true

instance (L : List Char) : Decidable (canonicalLayout L) := by
  unfold canonicalLayout
  infer_instance

theorem goDaysIn_le (y m : Int) : goDaysIn y m ≤ 31 := by
  unfold goDaysIn
  split
  · split <;> omega
  · split <;> omega

theorem goDaysIn_pos (y m : Int) : 1 ≤ goDaysIn y m := by
  unfold goDaysIn
  split
  · split <;> omega
  · split <;> omega

/-- Round trip of the modelled date codec: under a canonical layout and a
valid in-range date, formatting then parsing restores the date, the
rendering has the format's length, and it contains no whitespace. -/
theorem date_roundtrip {format : List Char} {d : GoDate}
    (hc : canonicalLayout (convertDateFormat format))
    (hy0 : 0 ≤ d.year) (hy1 : d.year ≤ 9999)
    (hm1 : 1 ≤ d.month) (hm2 : d.month ≤ 12)
    (hd1 : 1 ≤ d.day) (hd2 : d.day ≤ goDaysIn d.year d.month) :
    (formatDate d format).length = format.length ∧
    (∀ c ∈ formatDate d format, isGoSpace c = false) ∧
    formatDate d format ≠ [] ∧
    parseDateBytes (formatDate d format) format = .ok d := by
  obtain ⟨hcy, hcm, hcd, hlits⟩ := hc
  have hdle : d.day ≤ 31 := le_trans hd2 (goDaysIn_le d.year d.month)
  have hlen1 : (formatDate d format).length = (convertDateFormat format).length :=
    goTimeFormat_length hy0 hy1 (by omega) (by omega) (by omega) (by omega)
  have hlen : (formatDate d format).length = format.length := by
    rw [hlen1, convertDateFormat_length]
  have hnospace : ∀ c ∈ formatDate d format, isGoSpace c = false := by
    intro c hcmem
    rcases goTimeFormat_mem hcmem with hdig | hlit
    · exact isDigit_not_space hdig
    · have := List.all_eq_true.mp hlits _ hlit
      simp only [Bool.and_eq_true, Bool.not_eq_true'] at this
      exact this.2
  have hne : formatDate d format ≠ [] := by
    intro hemp
    have h0 : (formatDate d format).length = 0 := by rw [hemp]; rfl
    rw [hlen1] at h0
    rw [← scanLayout_width (convertDateFormat format)] at h0
    have h4 : (4 : Nat) ∈ (scanLayout (convertDateFormat format)).map tokWidth :=
      List.mem_map.mpr ⟨.year, hcy, rfl⟩
    have := List.single_le_sum (fun x _ => Nat.zero_le x) _ h4
    omega
  refine ⟨hlen, hnospace, hne, ?_⟩
  unfold parseDateBytes
  rw [if_neg (by omega)]
  unfold goTimeParse
  have hpt : parseToks (scanLayout (convertDateFormat format)) (formatDate d format)
      (0, 1, 1) = some (applyToks d (scanLayout (convertDateFormat format)) (0, 1, 1)) :=
    parseToks_render d hy0 hy1 (by omega) (by omega) (by omega) (by omega)
      (scanLayout (convertDateFormat format)) (0, 1, 1)
  have happ : applyToks d (scanLayout (convertDateFormat format)) (0, 1, 1) =
      (d.year, d.month, d.day) := by
    have h1 := applyToks_year (d := d) hcy ((0 : Int), (1 : Int), (1 : Int))
    have h2 := applyToks_month (d := d) hcm ((0 : Int), (1 : Int), (1 : Int))
    have h3 := applyToks_day (d := d) hcd ((0 : Int), (1 : Int), (1 : Int))
    cases happE : applyToks d (scanLayout (convertDateFormat format)) (0, 1, 1) with
    | mk y rest =>
      cases rest with
      | mk m dd =>
        rw [happE] at h1 h2 h3
        simp only at h1 h2 h3
        rw [h1, h2, h3]
  rw [hpt, happ]
  show (if d.month < 1 ∨ 12 < d.month then Except.error CNABError.timeParseError
    else if d.day < 1 ∨ goDaysIn d.year d.month < d.day then
      Except.error CNABError.timeParseError
    else Except.ok ⟨d.year, d.month, d.day⟩) = Except.ok d
  rw [if_neg (by omega), if_neg (by omega)]

/- ### Per-field round trip -/

theorem pow10_eq (n : Int) : pow10 n = (10 : ℚ) ^ n.toNat := by
  unfold pow10
  generalize n.toNat = m
  have aux : ∀ (m : Nat) (a : ℚ), (List.range m).foldl (fun a _ => a * 10) a = a * 10 ^ m := by
    intro m
    induction m with
    | zero => intro a; simp
    | succ k ihk =>
      intro a
      rw [List.range_succ, List.foldl_append, ihk]
      simp only [List.foldl_cons, List.foldl_nil]
      ring
  rw [aux]
  ring

theorem pow10_pos (n : Int) : 0 < pow10 n := by
  rw [pow10_eq]
  positivity

/-- Per-field value contract of the round-trip theorem: the canonical
dynamic representation for the field's type, already within the field's
width and the decoder's exactly-representable range. -/
def valueContractB (f : FieldSpec) (v : GoValue) : Bool :=
  match f.ftype, v with
  | "int", .int n =>
    decide (0 ≤ n) && decide (n < 2 ^ 63) &&
      decide (((natDigits n.toNat).length : Int) ≤ f.length)
  | "float", .float64 q =>
    decide (0 ≤ f.decimal) && decide ((q * pow10 f.decimal).den = 1) &&
      decide (0 ≤ (q * pow10 f.decimal).num) &&
      decide ((q * pow10 f.decimal).num < 2 ^ 63) &&
      decide (((natDigits (q * pow10 f.decimal).num.toNat).length : Int) ≤ f.length)
  | "date", .time d =>
    decide (canonicalLayout (convertDateFormat f.format)) &&
      decide ((f.format.length : Int) ≤ f.length) &&
      decide (0 ≤ d.year) && decide (d.year ≤ 9999) && decide (1 ≤ d.month) &&
      decide (d.month ≤ 12) && decide (1 ≤ d.day) &&
      decide (d.day ≤ goDaysIn d.year d.month)
  | "string", .str s =>
    !(s.isEmpty) && decide (goTrimSpace s = s) && decide ((s.length : Int) ≤ f.length)
  | _, _ => false

theorem valueContractB_cases {f : FieldSpec} {v : GoValue}
    (h : valueContractB f v = true) :
    (f.ftype = "int" ∧ ∃ n : Int, v = .int n ∧ 0 ≤ n ∧ n < 2 ^ 63 ∧
      ((natDigits n.toNat).length : Int) ≤ f.length) ∨
    (f.ftype = "float" ∧ ∃ q : ℚ, v = .float64 q ∧ 0 ≤ f.decimal ∧
      (q * pow10 f.decimal).den = 1 ∧ 0 ≤ (q * pow10 f.decimal).num ∧
      (q * pow10 f.decimal).num < 2 ^ 63 ∧
      ((natDigits (q * pow10 f.decimal).num.toNat).length : Int) ≤ f.length) ∨
    (f.ftype = "date" ∧ ∃ d : GoDate, v = .time d ∧
      canonicalLayout (convertDateFormat f.format) ∧
      (f.format.length : Int) ≤ f.length ∧ 0 ≤ d.year ∧ d.year ≤ 9999 ∧
      1 ≤ d.month ∧ d.month ≤ 12 ∧ 1 ≤ d.day ∧ d.day ≤ goDaysIn d.year d.month) ∨
    (f.ftype = "string" ∧ ∃ s : Bytes, v = .str s ∧ s ≠ [] ∧ goTrimSpace s = s ∧
      (s.length : Int) ≤ f.length) := by
  unfold valueContractB at h
  split at h
  · rename_i n heq
    simp only [Bool.and_eq_true, decide_eq_true_eq] at h
    exact Or.inl ⟨heq, n, rfl, h.1.1, h.1.2, h.2⟩
  · rename_i q heq
    simp only [Bool.and_eq_true, decide_eq_true_eq] at h
    exact Or.inr (Or.inl ⟨heq, q, rfl, h.1.1.1.1, h.1.1.1.2, h.1.1.2, h.1.2, h.2⟩)
  · rename_i d heq
    simp only [Bool.and_eq_true, decide_eq_true_eq] at h
    exact Or.inr (Or.inr (Or.inl ⟨heq, d, rfl, h.1.1.1.1.1.1.1, h.1.1.1.1.1.1.2,
      h.1.1.1.1.1.2, h.1.1.1.1.2, h.1.1.1.2, h.1.1.2, h.1.2, h.2⟩))
  · rename_i s heq
    simp only [Bool.and_eq_true, decide_eq_true_eq, Bool.not_eq_true',
      List.isEmpty_iff] at h
    exact Or.inr (Or.inr (Or.inr ⟨heq, s, rfl, by simpa using h.1.1, h.1.2, h.2⟩))
  · cases h

/-- Round trip of one field: a value meeting the contract encodes
successfully, passes the pack length check, and the space-padded encoding
decodes back to the very same value. -/
theorem fieldRoundTrip {f : FieldSpec} {v : GoValue}
    (hld : fieldLoaded f) (hc : valueContractB f v = true) :
    ∃ s, formatFieldValue f v = .ok s ∧ ¬((s.length : Int) > f.length) ∧
      parseFieldValue f (s ++ List.replicate (f.length.toNat - s.length) ' ') = .ok v := by
  obtain ⟨hst, hln, hend, -⟩ := hld
  rcases valueContractB_cases hc with
    ⟨hty, n, rfl, hn0, hn1, hdig⟩ |
    ⟨hty, q, rfl, hdec, hden, hnum0, hnum1, hdig⟩ |
    ⟨hty, d, rfl, hcan, hflen, hy0, hy1, hm1, hm2, hd1, hd2⟩ |
    ⟨hty, s, rfl, hne, htrim, hslen⟩
  · -- int field
    have hfl : (goSprintfZeroPad f.length n).length = f.length.toNat :=
      goSprintfZeroPad_nonneg_length hn0 hdig
    have hdigs := goSprintfZeroPad_nonneg_digits f.length hn0
    have hpad : goSprintfZeroPad f.length n ++
        List.replicate (f.length.toNat - (goSprintfZeroPad f.length n).length) ' ' =
        goSprintfZeroPad f.length n := by
      rw [hfl]
      simp
    have htrim : goTrimSpace (goSprintfZeroPad f.length n) = goSprintfZeroPad f.length n :=
      goTrimSpace_of_all_nonspace
        (fun c hcm => isDigit_not_space (List.all_eq_true.mp hdigs c hcm))
    have hlen0 : (goSprintfZeroPad f.length n).length ≠ 0 := by
      rw [goSprintfZeroPad_nonneg f.length hn0]
      have := natDigits_ne_nil n.toNat
      simp only [List.length_append, List.length_replicate, ne_eq]
      intro hcon
      exact this (List.eq_nil_of_length_eq_zero (by omega))
    refine ⟨goSprintfZeroPad f.length n, ?_, by omega, ?_⟩
    · unfold formatFieldValue
      rw [hty]
      rfl
    · rw [hpad]
      unfold parseFieldValue
      rw [htrim, if_neg hlen0, hty]
      rw [goSprintfZeroPad_nonneg f.length hn0]
      rw [atoiUnsafe_pad_natDigits (by omega)]
      rw [show ((n.toNat : Int)) = n by omega]
      rfl
  · -- float field
    set k : Int := (q * pow10 f.decimal).num with hk
    have hqk : q * pow10 f.decimal = (k : ℚ) := by
      conv_lhs => rw [← Rat.num_div_den (q * pow10 f.decimal)]
      rw [hden]
      simp
    have htr : goTruncToInt64 (q * pow10 f.decimal) = k := by
      rw [hqk]
      have h0 : (0 : ℚ) ≤ (k : ℚ) := by exact_mod_cast hnum0
      simp only [goTruncToInt64, ratTrunc]
      rw [if_pos h0, Int.floor_intCast]
      rw [if_neg (by omega)]
    have hfl : (goSprintfZeroPad f.length k).length = f.length.toNat :=
      goSprintfZeroPad_nonneg_length hnum0 hdig
    have hdigs := @goSprintfZeroPad_nonneg_digits k f.length hnum0
    have hpad : goSprintfZeroPad f.length k ++
        List.replicate (f.length.toNat - (goSprintfZeroPad f.length k).length) ' ' =
        goSprintfZeroPad f.length k := by
      rw [hfl]
      simp
    have htrim : goTrimSpace (goSprintfZeroPad f.length k) = goSprintfZeroPad f.length k :=
      goTrimSpace_of_all_nonspace
        (fun c hcm => isDigit_not_space (List.all_eq_true.mp hdigs c hcm))
    have hlen0 : (goSprintfZeroPad f.length k).length ≠ 0 := by
      rw [goSprintfZeroPad_nonneg f.length hnum0]
      have := natDigits_ne_nil k.toNat
      simp only [List.length_append, List.length_replicate, ne_eq]
      intro hcon
      exact this (List.eq_nil_of_length_eq_zero (by omega))
    refine ⟨goSprintfZeroPad f.length k, ?_, by omega, ?_⟩
    · unfold formatFieldValue
      rw [hty]
      show Except.ok (goSprintfZeroPad f.length (goTruncToInt64 (q * pow10 f.decimal))) = _
      rw [htr]
    · rw [hpad]
      unfold parseFieldValue
      rw [htrim, if_neg hlen0, hty]
      unfold parseFloatBytes
      rw [goSprintfZeroPad_nonneg f.length hnum0]
      rw [atoiUnsafe_pad_natDigits (by omega)]
      rw [show ((k.toNat : Int)) = k by omega]
      have hq : (k : ℚ) / pow10 f.decimal = q := by
        rw [← hqk, mul_div_assoc, div_self (ne_of_gt (pow10_pos f.decimal)), mul_one]
      show Except.ok (GoValue.float64 ((k : ℚ) / pow10 f.decimal)) =
        Except.ok (GoValue.float64 q)
      rw [hq]
  · -- date field
    obtain ⟨hdlen, hdns, hdne, hdparse⟩ :=
      date_roundtrip hcan hy0 hy1 hm1 hm2 hd1 hd2
    have htrim : goTrimSpace (formatDate d f.format ++
        List.replicate (f.length.toNat - (formatDate d f.format).length) ' ') =
        formatDate d f.format := by
      rw [goTrimSpace_append_spaces]
      exact goTrimSpace_of_all_nonspace hdns
    have hlen0 : (formatDate d f.format).length ≠ 0 := by
      intro hcon
      exact hdne (List.eq_nil_of_length_eq_zero hcon)
    refine ⟨formatDate d f.format, ?_, by omega, ?_⟩
    · unfold formatFieldValue
      rw [hty]
      rfl
    · unfold parseFieldValue
      rw [htrim, if_neg hlen0, hty, hdparse]
      rfl
  · -- string field
    have hlen0 : s.length ≠ 0 := fun hcon => hne (List.eq_nil_of_length_eq_zero hcon)
    have htrimp : goTrimSpace (s ++ List.replicate (f.length.toNat - s.length) ' ') = s := by
      rw [goTrimSpace_append_spaces, htrim]
    refine ⟨s, ?_, by omega, ?_⟩
    · unfold formatFieldValue
      rw [hty]
      rfl
    · unfold parseFieldValue
      rw [htrimp, if_neg hlen0, hty]
      rfl

/- ### Whole-record round trip -/

/-- The pack loop, run over fields whose copy windows are pairwise
disjoint and individually satisfiable, succeeds and yields a buffer in
which each field's window holds exactly its padded encoding and every
byte range disjoint from all windows is untouched. -/
theorem packGo_writes {data : RecordMap} (tl : Nat) :
    ∀ (fields : CNABSpec) (arr : List Char),
      tl ≤ arr.length →
      (∀ f ∈ fields, fieldLoaded f ∧ f.End ≤ (tl : Int) ∧
        packFieldOk data arr.length f) →
      fields.Pairwise (fun f g => f.End ≤ g.start - 1 ∨ g.End ≤ f.start - 1) →
      ∃ arr' : List Char,
        PackRecord.go false data tl fields arr = (.ok (arr'.take tl), arr') ∧
        arr'.length = arr.length ∧
        (∀ f ∈ fields, ∀ v s, mlookup data f.name = some v →
          formatFieldValue f v = .ok s →
          readSeg arr' (f.start - 1).toNat (f.End - (f.start - 1)).toNat =
            (s ++ List.replicate (f.length.toNat - s.length) ' ').take
              (f.End - (f.start - 1)).toNat) ∧
        (∀ lo len : Nat,
          (∀ f ∈ fields, f.End ≤ (lo : Int) ∨ ((lo : Int) + len ≤ f.start - 1)) →
          readSeg arr' lo len = readSeg arr lo len) := by
  intro fields
  induction fields with
  | nil =>
    intro arr harr _ _
    exact ⟨arr, rfl, rfl, by simp, fun lo len _ => rfl⟩
  | cons f rest ih =>
    intro arr harr hflds hpw
    obtain ⟨hldf, hendf, hpok⟩ := hflds f (List.mem_cons_self f rest)
    obtain ⟨hst, hln, hEnd, -⟩ := hldf
    obtain ⟨s0, hstep, hlenpres, -, v0, hl0, hfmt0, hslen0⟩ := packGo_step_ok tl rest hpok
    cases hpw with
    | cons hfg hpw' =>
    have hs0len : s0.length ≤ f.length.toNat := by omega
    have hlocast : (((f.start - 1).toNat : Int)) = f.start - 1 := by omega
    have hlencast : (((f.End - (f.start - 1)).toNat : Int)) = f.End - (f.start - 1) := by
      omega
    have hwlen : ((s0 ++ List.replicate (f.length.toNat - s0.length) ' ').take
        (f.End - (f.start - 1)).toNat).length = (f.End - (f.start - 1)).toNat := by
      rw [List.length_take, List.length_append, List.length_replicate]
      omega
    have hwbound : (f.start - 1).toNat +
        ((s0 ++ List.replicate (f.length.toNat - s0.length) ' ').take
          (f.End - (f.start - 1)).toNat).length ≤ arr.length := by
      rw [hwlen]
      omega
    obtain ⟨arr', hgo, hlen', hfields', hframe'⟩ :=
      ih (writeSeg arr (f.start - 1).toNat
        ((s0 ++ List.replicate (f.length.toNat - s0.length) ' ').take
          (f.End - (f.start - 1)).toNat))
        (by rw [hlenpres]; exact harr)
        (fun g hg => by
          obtain ⟨h1, h2, h3⟩ := hflds g (List.mem_cons_of_mem f hg)
          rw [hlenpres]
          exact ⟨h1, h2, h3⟩)
        hpw'
    refine ⟨arr', by rw [hstep]; exact hgo, by rw [hlen', hlenpres], ?_, ?_⟩
    · intro g hg v s hv hs
      rcases List.mem_cons.mp hg with rfl | hg'
      · have hveq : v = v0 := Option.some.inj (hv.symm.trans hl0)
        have hseq : s = s0 := Except.ok.inj ((hveq ▸ hs).symm.trans hfmt0)
        subst hveq hseq
        rw [hframe' (g.start - 1).toNat (g.End - (g.start - 1)).toNat
          (fun g' hg' => by
            rcases hfg g' hg' with hd | hd
            · right
              rw [hlocast, hlencast]
              omega
            · left
              rw [hlocast]
              omega)]
        have hself := readSeg_writeSeg_self hwbound
        rwa [hwlen] at hself
      · exact hfields' g hg' v s hv hs
    · intro lo len hcond
      rw [hframe' lo len (fun g hg => hcond g (List.mem_cons_of_mem f hg))]
      apply readSeg_writeSeg_disjoint hwbound
      rcases hcond f (List.mem_cons_self f rest) with hd | hd
      · right
        rw [hwlen]
        omega
      · left
        omega

/-- The parse loop, run over fields whose slices all lie inside the
record and decode to the value the data map holds for the field's name,
succeeds; the resulting map answers every lookup from the data map on
the spec's field names and from the initial accumulator elsewhere. -/
theorem parseGo_roundtrip {data : RecordMap} {record : Bytes} :
    ∀ (fields : CNABSpec) (m : RecordMap),
      (∀ f ∈ fields, fieldLoaded f ∧ ¬ f.End > (record.length : Int) ∧
        ∃ v, mlookup data f.name = some v ∧
          parseFieldValue f ((record.drop (f.start - 1).toNat).take
            (f.End - (f.start - 1)).toNat) = .ok v) →
      ∃ m', ParseRecord.go false record fields m = .ok m' ∧
        ∀ k, mlookup m' k =
          if k ∈ fields.map FieldSpec.name then mlookup data k else mlookup m k := by
  intro fields
  induction fields with
  | nil =>
    intro m _
    exact ⟨m, rfl, fun k => by simp⟩
  | cons f rest ih =>
    intro m hflds
    obtain ⟨⟨hst, hln, hEnd, -⟩, hb, v, hv, hpv⟩ := hflds f (List.mem_cons_self f rest)
    obtain ⟨m', hgo, hlk⟩ := ih (minsert f.name v m)
      (fun g hg => hflds g (List.mem_cons_of_mem f hg))
    refine ⟨m', ?_, ?_⟩
    · simp only [ParseRecord.go]
      rw [if_neg (by simp)]
      unfold parseRecord
      rw [if_neg hb, if_pos ⟨by omega, by omega, by omega⟩, hpv]
      exact hgo
    · intro k
      rw [hlk k]
      by_cases hkr : k ∈ rest.map FieldSpec.name
      · rw [if_pos hkr,
          if_pos (by simp only [List.map_cons, List.mem_cons]; exact Or.inr hkr)]
      · rw [if_neg hkr]
        by_cases hkf : k = f.name
        · subst hkf
          rw [if_pos (by simp)]
          simp only [minsert, mlookup, if_pos rfl]
          exact hv.symm
        · rw [if_neg (by
            simp only [List.map_cons, List.mem_cons]
            exact fun hc => hc.elim (fun h => hkf h) (fun h => hkr h))]
          simp only [minsert, mlookup]
          rw [if_neg (fun hc => hkf hc.symm)]

/-!
## Claim theorems
-/

/-- C10: the digit-string decoder used for int and float fields
accumulates `n = n*10 + digit` in a native machine integer with no
overflow check; on every all-digit input it succeeds with the exact value
wrapped modulo `2 ^ 64` (two's complement), and in particular the
20-digit input `18446744073709551626`, whose value is `2 ^ 64 + 10`,
decodes to `10` instead of an error (and the float decoder inherits the
wrapped value). -/
theorem c10_atoi_digit_overflow_wraps :
    (∀ b : Bytes, b.all isDigitChar = true →
      atoiUnsafe b = .ok (wrap64 (digitsVal b))) ∧
    atoiUnsafe ("18446744073709551626".toList) = .ok 10 ∧
    digitsVal ("18446744073709551626".toList) = 2 ^ 64 + 10 ∧
    parseFloatBytes ("18446744073709551626".toList) 2 = .ok ((10 : ℚ) / 100) := by
  have h2 : atoiUnsafe ("18446744073709551626".toList) = .ok 10 := by decide
  refine ⟨fun b hb => atoiUnsafe_digits b hb, h2, by decide, ?_⟩
  unfold parseFloatBytes
  rw [h2]
  have hp : pow10 2 = 100 := by
    unfold pow10
    rw [show ((2 : Int).toNat) = 2 from rfl, List.range_succ, List.range_succ,
      List.range_zero]
    simp only [List.foldl_append, List.foldl_cons, List.foldl_nil, List.nil_append]
    norm_num
  rw [hp]
  norm_num

theorem c10_atoi_digit_overflow_wraps_witness :
    ("90".toList.all isDigitChar = true) ∧
    atoiUnsafe "90".toList = .ok (wrap64 (digitsVal "90".toList)) :=
  ⟨by decide, c10_atoi_digit_overflow_wraps.1 "90".toList (by decide)⟩

/-- C4 counterexample: a specification whose only field has the
unregistered type string `bogus` is accepted by `LoadSpec`, not rejected
with `FieldHasNoTypeSpecified` as the claim states. -/
theorem c4_bogus_type_accepted_at_load :
    LoadSpec false [{ name := "f", ftype := "bogus", start := 1, length := 1 }] =
      .ok [{ name := "f", ftype := "bogus", start := 1, length := 1, End := 1 }] := by
  decide

/-- C4 (amended): `LoadSpec` validates only that each field's type string
is non-empty, failing with `FieldHasNoTypeSpecified` exactly when some
field's type is the empty string; a non-empty unregistered type such as
`bogus` is accepted at load time and produces `UnsupportedFieldType` only
later, when the field is decoded (`parseFieldValue`) or encoded
(`formatFieldValue`). -/
theorem c4_loadSpec_rejects_only_empty_type
    (fields : CNABSpec) (hpos : ∀ f ∈ fields, 0 < f.start ∧ 0 < f.length) :
    ((∃ s, LoadSpec false fields = .ok s) ↔ ∀ f ∈ fields, f.ftype ≠ "") ∧
    (∀ f : FieldSpec, ∀ raw : Bytes, f.ftype = "bogus" →
      (goTrimSpace raw).length ≠ 0 →
      parseFieldValue f raw = .error (.unsupportedFieldType "bogus")) ∧
    (∀ f : FieldSpec, ∀ v : GoValue, f.ftype = "bogus" →
      formatFieldValue f v = .error (.unsupportedFieldType "bogus")) := by
  refine ⟨?_, ?_, ?_⟩
  · unfold LoadSpec
    rw [if_neg (by simp)]
    exact loadSpecGo_ok_iff fields hpos
  · intro f raw hf hne
    unfold parseFieldValue
    rw [if_neg hne, hf]
    rfl
  · intro f v hf
    unfold formatFieldValue
    rw [hf]
    rfl

theorem c4_loadSpec_rejects_only_empty_type_witness :
    (∀ f ∈ ([{ name := "f", ftype := "bogus", start := 1, length := 1 }] : CNABSpec),
      0 < f.start ∧ 0 < f.length) ∧
    ((∃ s, LoadSpec false [{ name := "f", ftype := "bogus", start := 1, length := 1 }] = .ok s) ↔
      ∀ f ∈ ([{ name := "f", ftype := "bogus", start := 1, length := 1 }] : CNABSpec),
        f.ftype ≠ "") :=
  ⟨by decide, (c4_loadSpec_rejects_only_empty_type _ (by decide)).1⟩

/-- C7: when the caller-supplied cancellation signal is already set, both
`ParseRecord` and `PackRecord` observe it at the check preceding the
first field's work and return the cancellation error immediately, with no
field processed and no result produced (the specs in scope have at least
one field; with zero fields the loop body never runs). -/
theorem c7_cancelled_context_aborts
    (spec : CNABSpec) (record : Bytes) (data : RecordMap) (pool : List Char)
    (hne : spec ≠ []) :
    ParseRecord spec true record = .err .cancelled ∧
    (PackRecord spec true data pool).1 = .err .cancelled := by
  match spec with
  | [] => exact absurd rfl hne
  | f :: rest => exact ⟨rfl, rfl⟩

theorem c7_cancelled_context_aborts_witness :
    (([{ name := "a", ftype := "int", start := 1, length := 1, End := 1 }] : CNABSpec) ≠ []) ∧
    ParseRecord [{ name := "a", ftype := "int", start := 1, length := 1, End := 1 }] true
      ['1'] = .err .cancelled :=
  ⟨by decide,
    (c7_cancelled_context_aborts _ ['1'] [("a", .int 1)] initialPool (by decide)).1⟩

/-- C2 counterexample: a `string`-typed field whose raw bytes are all
whitespace does not decode to an empty string during `ParseRecord`; the
call fails with `FailedToParseField` wrapping `FieldIsEmpty`, because the
processor's `parseFieldValue` applies the empty-residue check before
dispatching on the type. -/
theorem c2_whitespace_string_field_errors :
    ParseRecord [{ name := "s", ftype := "string", start := 1, length := 2, End := 2 }]
      false [' ', ' '] = .err (.failedToParseField "s" (.fieldIsEmpty "s")) := by
  decide

/-- C2 (amended): during `ParseRecord`, decoding an all-whitespace raw
byte slice yields `FieldIsEmpty` for all four field types — `int`,
`float`, `date` and also `string` — since the empty check precedes the
type dispatch; the standalone string handler `parseStringField` of
`fields.go` (not invoked by the processor) is the one that returns an
empty string successfully. -/
theorem c2_empty_rejection_uniform
    (f : FieldSpec) (raw : Bytes)
    (hty : f.ftype = "int" ∨ f.ftype = "float" ∨ f.ftype = "date" ∨ f.ftype = "string")
    (hws : raw.all isGoSpace = true) :
    parseFieldValue f raw = .error (.fieldIsEmpty f.name) ∧
    parseStringField f raw = .ok (.str []) := by
  have htrim : goTrimSpace raw = [] := by
    unfold goTrimSpace
    have h1 : raw.dropWhile isGoSpace = [] := by
      rw [List.dropWhile_eq_nil_iff]
      intro c hc
      exact (List.all_eq_true.mp hws) c hc
    rw [h1]
    rfl
  constructor
  · unfold parseFieldValue
    rw [htrim]
    rfl
  · unfold parseStringField
    rw [htrim]

theorem c2_empty_rejection_uniform_witness :
    (("string" : String) = "int" ∨ ("string" : String) = "float" ∨
      ("string" : String) = "date" ∨ ("string" : String) = "string") ∧
    (([' ', ' '] : Bytes).all isGoSpace = true) ∧
    parseFieldValue { name := "s", ftype := "string", start := 1, length := 2, End := 2 }
      [' ', ' '] = .error (.fieldIsEmpty "s") :=
  ⟨by decide, by decide,
    (c2_empty_rejection_uniform
      { name := "s", ftype := "string", start := 1, length := 2, End := 2 }
      [' ', ' '] (by decide) (by decide)).1⟩

/-- C6 counterexample: the encoder accepts a negative value for an `int`
field (`toInt` succeeds and the length check passes), and the resulting
field portion of a successful `PackRecord` output contains the sign
character `-`, which is not an ASCII digit — so the claimed all-digit
zero-padding invariant fails for such accepted values. -/
theorem c6_negative_int_output_has_sign :
    (PackRecord [{ name := "a", ftype := "int", start := 1, length := 2, End := 2 }]
      false [("a", .int (-1))] initialPool).1 = .ok ['-', '1'] ∧
    isDigitChar '-' = false := by
  constructor
  · decide
  · decide

/-- C6 (amended): for an `int` field holding a non-negative integer, and
for a `float` field whose scaled value truncates to a non-negative
integer, the encoded text accepted by `PackRecord`'s length check is
exactly `length` ASCII decimal digits, left-padded with `'0'` (no sign
character), so the subsequent space-padding step is a no-op. -/
theorem c6_nonnegative_numeric_zero_padded
    (f : FieldSpec) (v : GoValue) (s : Bytes)
    (hs : formatFieldValue f v = .ok s)
    (hkind : (f.ftype = "int" ∧ ∃ n : Int, v = .int n ∧ 0 ≤ n) ∨
      (f.ftype = "float" ∧ ∃ q : ℚ, v = .float64 q ∧
        0 ≤ goTruncToInt64 (q * pow10 f.decimal)))
    (hlen : (s.length : Int) ≤ f.length) :
    s.length = f.length.toNat ∧ s.all isDigitChar = true ∧
    s ++ List.replicate (f.length.toNat - s.length) ' ' = s := by
  have hmain : ∃ n : Int, 0 ≤ n ∧ s = goSprintfZeroPad f.length n := by
    rcases hkind with ⟨hf, n, hv, hn⟩ | ⟨hf, q, hv, hn⟩
    · refine ⟨n, hn, ?_⟩
      unfold formatFieldValue at hs
      rw [hf, hv] at hs
      simp only [toInt] at hs
      cases hs
      rfl
    · refine ⟨goTruncToInt64 (q * pow10 f.decimal), hn, ?_⟩
      unfold formatFieldValue at hs
      rw [hf, hv] at hs
      simp only [toFloat] at hs
      cases hs
      rfl
  obtain ⟨n, hn, rfl⟩ := hmain
  rw [goSprintfZeroPad_nonneg f.length hn] at hlen ⊢
  have hne := natDigits_ne_nil n.toNat
  have hlen' : (natDigits n.toNat).length ≤ f.length.toNat := by
    simp only [List.length_append, List.length_replicate] at hlen
    omega
  refine ⟨?_, ?_, ?_⟩
  · simp only [List.length_append, List.length_replicate]
    simp only [List.length_append, List.length_replicate] at hlen
    omega
  · rw [← goSprintfZeroPad_nonneg f.length hn]
    exact goSprintfZeroPad_nonneg_digits f.length hn
  · have : f.length.toNat -
        (List.replicate (f.length.toNat - (natDigits n.toNat).length) '0' ++
          natDigits n.toNat).length = 0 := by
      simp only [List.length_append, List.length_replicate]
      omega
    rw [this]
    simp

/-- C5: for every loaded specification (so every field has positive start
and length and precomputed `End`), a field whose `End` exceeds the record
length always makes its processing step return `FieldExceedsRecordLength`
— and `ParseRecord` never panics on any input record: the boundary guard
together with the load-time invariants keeps every slice access
`record[Start-1 : End]` in range. -/
theorem c5_parse_boundary_safe :
    (∀ (record : Bytes) (f : FieldSpec) (m : RecordMap),
      f.End > (record.length : Int) →
      parseRecord record f m = .err (.fieldExceedsRecordLength f.name)) ∧
    (∀ (spec : CNABSpec) (ctx : Bool) (record : Bytes),
      (∀ f ∈ spec, fieldLoaded f) →
      ParseRecord spec ctx record ≠ .panicked) := by
  constructor
  · intro record f m h
    unfold parseRecord
    rw [if_pos h]
  · intro spec ctx record hf
    exact parseGo_no_panic ctx spec [] hf

theorem c5_parse_boundary_safe_witness :
    (({ name := "a", ftype := "int", start := 1, length := 5, End := 5 } : FieldSpec).End >
      ((("001".toList : Bytes)).length : Int)) ∧
    parseRecord "001".toList { name := "a", ftype := "int", start := 1, length := 5, End := 5 }
      [] = .err (.fieldExceedsRecordLength "a") :=
  ⟨by decide,
    c5_parse_boundary_safe.1 "001".toList
      { name := "a", ftype := "int", start := 1, length := 5, End := 5 } [] (by decide)⟩

/-- C9 counterexample: the claim's own example — a specification accepted
by `LoadSpec` with a single int field at start 2, length 3, hence
`End = 4` greater than the total length 3 — does not panic on the
processor's first call: the copy window `buf[1:4]` is legal against the
pooled array's 1024-byte capacity, the write lands partly in hidden
capacity, and `PackRecord` returns a silently truncated buffer (the
field's last byte is lost) rather than panicking. -/
theorem c9_gap_example_truncates_instead_of_panicking :
    (PackRecord [{ name := "a", ftype := "int", start := 2, length := 3, End := 4 }]
      false [("a", .int 3)] initialPool).1 = .ok [Char.ofNat 0, '0', '0'] := by
  decide

/-- C9 (amended): the copy `buf[Start-1 : End]` panics exactly when the
window exceeds the backing array's capacity, not merely the summed
length: a loaded field with `End = 1025` panics against the initial
1024-byte pooled array, while whenever every field's `End` is at most the
sum of the field lengths the write is in visible bounds and no panic is
possible, for any pool state. -/
theorem c9_pack_bounds :
    (PackRecord [{ name := "a", ftype := "int", start := 1023, length := 3, End := 1025 }]
      false [("a", .int 3)] initialPool).1 = .panicked ∧
    (∀ (spec : CNABSpec) (ctx : Bool) (data : RecordMap) (pool : List Char),
      (∀ f ∈ spec, fieldLoaded f ∧ f.End ≤ totalLength spec) →
      (PackRecord spec ctx data pool).1 ≠ .panicked) := by
  constructor
  · decide
  · intro spec ctx data pool hf
    show (PackRecord.go ctx data (totalLength spec).toNat spec
      (if pool.length < (totalLength spec).toNat
        then List.replicate (totalLength spec).toNat (Char.ofNat 0)
        else pool)).1 ≠ .panicked
    apply packGo_no_panic
    · intro f hf'
      obtain ⟨h1, h2⟩ := hf f hf'
      refine ⟨h1, ?_⟩
      have := Int.self_le_toNat (totalLength spec)
      omega
    · rw [packRecord_arr0_length]
      unfold packCap
      show (totalLength spec).toNat ≤
        if pool.length < (totalLength spec).toNat
          then (totalLength spec).toNat else pool.length
      split <;> omega

theorem c9_pack_bounds_witness :
    (∀ f ∈ ([{ name := "a", ftype := "int", start := 1, length := 3, End := 3 }] : CNABSpec),
      fieldLoaded f ∧ f.End ≤ totalLength [{ name := "a", ftype := "int", start := 1, length := 3, End := 3 }]) ∧
    (PackRecord [{ name := "a", ftype := "int", start := 1, length := 3, End := 3 }]
      false [("a", .int 7)] []).1 ≠ .panicked :=
  ⟨by decide,
    c9_pack_bounds.2 [{ name := "a", ftype := "int", start := 1, length := 3, End := 3 }]
      false [("a", .int 7)] [] (by decide)⟩

/-- C3: the buffer returned by `PackRecord` is the pooled backing array
itself, not an owned copy, and its contents depend on pool state left by
earlier calls.  With the specification `[a:int@1+1, b:int@1+1]` (accepted
by `LoadSpec`; total length 2, byte 1 never written) and identical input
data, packing against the fresh pool yields a NUL in byte 1 while packing
against the pool state left by an earlier string pack yields that call's
leftover `X`; and in each call the returned bytes are exactly the prefix
of the array that the deferred `Put` stores back into the pool — the
alias a later call overwrites. -/
theorem c3_pack_output_depends_on_pool :
    (PackRecord
      [{ name := "a", ftype := "int", start := 1, length := 1, End := 1 },
       { name := "b", ftype := "int", start := 1, length := 1, End := 1 }]
      false [("a", .int 1), ("b", .int 2)] initialPool).1 = .ok ['2', Char.ofNat 0] ∧
    (PackRecord
      [{ name := "a", ftype := "int", start := 1, length := 1, End := 1 },
       { name := "b", ftype := "int", start := 1, length := 1, End := 1 }]
      false [("a", .int 1), ("b", .int 2)]
      ((PackRecord [{ name := "s", ftype := "string", start := 1, length := 2, End := 2 }]
        false [("s", .str ['X', 'X'])] initialPool).2)).1 = .ok ['2', 'X'] ∧
    (PackRecord
      [{ name := "a", ftype := "int", start := 1, length := 1, End := 1 },
       { name := "b", ftype := "int", start := 1, length := 1, End := 1 }]
      false [("a", .int 1), ("b", .int 2)] initialPool).1 ≠
    (PackRecord
      [{ name := "a", ftype := "int", start := 1, length := 1, End := 1 },
       { name := "b", ftype := "int", start := 1, length := 1, End := 1 }]
      false [("a", .int 1), ("b", .int 2)]
      ((PackRecord [{ name := "s", ftype := "string", start := 1, length := 2, End := 2 }]
        false [("s", .str ['X', 'X'])] initialPool).2)).1 ∧
    (PackRecord
      [{ name := "a", ftype := "int", start := 1, length := 1, End := 1 },
       { name := "b", ftype := "int", start := 1, length := 1, End := 1 }]
      false [("a", .int 1), ("b", .int 2)] initialPool).1 =
      .ok (((PackRecord
        [{ name := "a", ftype := "int", start := 1, length := 1, End := 1 },
         { name := "b", ftype := "int", start := 1, length := 1, End := 1 }]
        false [("a", .int 1), ("b", .int 2)] initialPool).2).take 2) := by
  have h1 : (PackRecord
      [{ name := "a", ftype := "int", start := 1, length := 1, End := 1 },
       { name := "b", ftype := "int", start := 1, length := 1, End := 1 }]
      false [("a", .int 1), ("b", .int 2)] initialPool).1 = .ok ['2', Char.ofNat 0] := by
    decide
  have h2 : (PackRecord
      [{ name := "a", ftype := "int", start := 1, length := 1, End := 1 },
       { name := "b", ftype := "int", start := 1, length := 1, End := 1 }]
      false [("a", .int 1), ("b", .int 2)]
      ((PackRecord [{ name := "s", ftype := "string", start := 1, length := 2, End := 2 }]
        false [("s", .str ['X', 'X'])] initialPool).2)).1 = .ok ['2', 'X'] := by
    decide
  refine ⟨h1, h2, ?_, ?_⟩
  · rw [h1, h2]
    decide
  · decide

/-- C8: a failing decode during `ParseRecord` surfaces as
`FailedToParseField` carrying the handler's error as its cause, and a
failing encode during `PackRecord` surfaces as `FailedToFormatField`
carrying the encoder's error; in both loops the first failing field
aborts the whole call, whose result is then only that error — the
successfully processed earlier fields yield no partial map and no partial
buffer to the caller. -/
theorem c8_error_wrapping_and_atomicity :
    (∀ (pre post : CNABSpec) (f : FieldSpec) (record : Bytes) (e : CNABError),
      (∀ g ∈ pre, (parseRecord record g []).isOk = true) →
      ¬ f.End > (record.length : Int) →
      0 ≤ f.start - 1 → f.start - 1 ≤ f.End →
      parseFieldValue f
        ((record.drop (f.start - 1).toNat).take (f.End - (f.start - 1)).toNat) = .error e →
      ParseRecord (pre ++ f :: post) false record =
        .err (.failedToParseField f.name e)) ∧
    (∀ (pre post : CNABSpec) (f : FieldSpec) (data : RecordMap) (pool : List Char)
        (v : GoValue) (e : CNABError),
      (∀ g ∈ pre, packFieldOk data (packCap (pre ++ f :: post) pool) g) →
      mlookup data f.name = some v →
      formatFieldValue f v = .error e →
      (PackRecord (pre ++ f :: post) false data pool).1 =
        .err (.failedToFormatField e)) := by
  constructor
  · intro pre post f record e hpre hb h0 h1 he
    exact parseGo_wrap post hb h0 h1 he pre [] hpre
  · intro pre post f data pool v e hpre hl hfmt
    show (PackRecord.go false data (totalLength (pre ++ f :: post)).toNat (pre ++ f :: post)
      (if pool.length < (totalLength (pre ++ f :: post)).toNat
        then List.replicate (totalLength (pre ++ f :: post)).toNat (Char.ofNat 0)
        else pool)).1 = .err (.failedToFormatField e)
    apply packGo_wrap post _ hl hfmt
    intro g hg
    rw [packRecord_arr0_length]
    exact hpre g hg

theorem c8_error_wrapping_and_atomicity_witness :
    ParseRecord
      [{ name := "ok", ftype := "int", start := 1, length := 1, End := 1 },
       { name := "bad", ftype := "int", start := 2, length := 2, End := 3 }]
      false ['7', ' ', ' '] = .err (.failedToParseField "bad" (.fieldIsEmpty "bad")) ∧
    (PackRecord
      [{ name := "bad", ftype := "int", start := 1, length := 2, End := 2 }]
      false [("bad", .str ['x'])] initialPool).1 =
      .err (.failedToFormatField (.fieldValueIsNotAnInt "bad" .atoiSyntaxError)) :=
  ⟨c8_error_wrapping_and_atomicity.1
      [{ name := "ok", ftype := "int", start := 1, length := 1, End := 1 }] []
      { name := "bad", ftype := "int", start := 2, length := 2, End := 3 }
      ['7', ' ', ' '] (.fieldIsEmpty "bad") (by decide) (by decide) (by decide) (by decide)
      (by decide),
    c8_error_wrapping_and_atomicity.2 [] []
      { name := "bad", ftype := "int", start := 1, length := 2, End := 2 }
      [("bad", .str ['x'])] initialPool (.str ['x'])
      (.fieldValueIsNotAnInt "bad" .atoiSyntaxError) (by simp) (by decide) (by decide)⟩

theorem c6_nonnegative_numeric_zero_padded_witness :
    formatFieldValue { name := "a", ftype := "int", start := 1, length := 3, End := 3 }
      (.int 7) = .ok ['0', '0', '7'] ∧
    ((['0', '0', '7'] : Bytes).length : Int) ≤ 3 ∧
    (['0', '0', '7'] : Bytes).length =
      ({ name := "a", ftype := "int", start := 1, length := 3, End := 3 } : FieldSpec).length.toNat :=
  ⟨by decide, by decide,
    (c6_nonnegative_numeric_zero_padded
      { name := "a", ftype := "int", start := 1, length := 3, End := 3 }
      (.int 7) ['0', '0', '7'] (by decide)
      (Or.inl ⟨rfl, 7, rfl, by decide⟩) (by decide)).1⟩

/-- C1 (amended): the round trip needs more than the per-field contracts
the claim states — the fields' copy windows must also be pairwise
disjoint and end within the computed record (LoadSpec enforces neither).
Under those conditions it holds: for every spec of loaded fields with
`End ≤ totalLength` and pairwise-disjoint windows, and every data map
holding for each field a value meeting the field's canonical formatting
contract, `PackRecord` succeeds and `ParseRecord` of the packed bytes
succeeds with a map that answers every lookup on a field name exactly as
the data map does and every other key with `none` — so when the data
map's keys are the field names, `parse (pack values) = values`.  Without
disjointness the equation fails on a spec `LoadSpec` accepts. -/
theorem c1_roundtrip_disjoint_fields
    (spec : CNABSpec) (data : RecordMap) (pool : List Char)
    (hld : ∀ f ∈ spec, fieldLoaded f)
    (hend : ∀ f ∈ spec, f.End ≤ totalLength spec)
    (hdisj : spec.Pairwise (fun f g => f.End ≤ g.start - 1 ∨ g.End ≤ f.start - 1))
    (hdata : ∀ f ∈ spec, ∃ v, mlookup data f.name = some v ∧
      valueContractB f v = true) :
    ∃ out : Bytes, (PackRecord spec false data pool).1 = .ok out ∧
      ∃ m : RecordMap, ParseRecord spec false out = .ok m ∧
        ∀ k : String, mlookup m k =
          if k ∈ spec.map FieldSpec.name then mlookup data k else none := by
  have harr0 : (totalLength spec).toNat ≤
      (if pool.length < (totalLength spec).toNat
        then List.replicate (totalLength spec).toNat (Char.ofNat 0) else pool).length := by
    split
    · rw [List.length_replicate]
    · rename_i h
      omega
  have hEndtl : ∀ f ∈ spec, f.End ≤ (((totalLength spec).toNat : Int)) :=
    fun f hf => le_trans (hend f hf) (Int.self_le_toNat _)
  have hpok : ∀ f ∈ spec, fieldLoaded f ∧
      f.End ≤ (((totalLength spec).toNat : Int)) ∧
      packFieldOk data
        (if pool.length < (totalLength spec).toNat
          then List.replicate (totalLength spec).toNat (Char.ofNat 0) else pool).length
        f := by
    intro f hf
    refine ⟨hld f hf, hEndtl f hf, ?_⟩
    obtain ⟨v, hv, hc⟩ := hdata f hf
    obtain ⟨s, hfmt, hslen, -⟩ := fieldRoundTrip (hld f hf) hc
    obtain ⟨h1, h2, h3, -⟩ := hld f hf
    have hET := hEndtl f hf
    exact ⟨v, s, hv, hfmt, hslen, by omega, by omega, by omega⟩
  obtain ⟨arr', hgo, hlen', hfieldseg, -⟩ :=
    packGo_writes (totalLength spec).toNat spec
      (if pool.length < (totalLength spec).toNat
        then List.replicate (totalLength spec).toNat (Char.ofNat 0) else pool)
      harr0 hpok hdisj
  have hpack : (PackRecord spec false data pool).1 =
      .ok (arr'.take (totalLength spec).toNat) := by
    show (PackRecord.go false data (totalLength spec).toNat spec
      (if pool.length < (totalLength spec).toNat
        then List.replicate (totalLength spec).toNat (Char.ofNat 0) else pool)).1 = _
    rw [hgo]
  have harrlen : (totalLength spec).toNat ≤ arr'.length := by
    rw [hlen']
    exact harr0
  have houtlen : (arr'.take (totalLength spec).toNat).length =
      (totalLength spec).toNat := by
    rw [List.length_take]
    omega
  have hps : ∀ f ∈ spec, fieldLoaded f ∧
      ¬ f.End > ((arr'.take (totalLength spec).toNat).length : Int) ∧
      ∃ v, mlookup data f.name = some v ∧
        parseFieldValue f
          (((arr'.take (totalLength spec).toNat).drop (f.start - 1).toNat).take
            (f.End - (f.start - 1)).toNat) = .ok v := by
    intro f hf
    obtain ⟨v, hv, hc⟩ := hdata f hf
    obtain ⟨s, hfmt, hslen, hpv⟩ := fieldRoundTrip (hld f hf) hc
    obtain ⟨h1, h2, h3, -⟩ := hld f hf
    have hET := hEndtl f hf
    refine ⟨hld f hf, by rw [houtlen]; omega, v, hv, ?_⟩
    have hseg : readSeg (arr'.take (totalLength spec).toNat) (f.start - 1).toNat
        (f.End - (f.start - 1)).toNat =
        (s ++ List.replicate (f.length.toNat - s.length) ' ').take
          (f.End - (f.start - 1)).toNat := by
      rw [readSeg_take (by omega)]
      exact hfieldseg f hf v s hv hfmt
    have hpadfull : (s ++ List.replicate (f.length.toNat - s.length) ' ').take
        (f.End - (f.start - 1)).toNat =
        s ++ List.replicate (f.length.toNat - s.length) ' ' := by
      apply List.take_of_length_le
      rw [List.length_append, List.length_replicate]
      omega
    show parseFieldValue f (readSeg (arr'.take (totalLength spec).toNat)
      (f.start - 1).toNat (f.End - (f.start - 1)).toNat) = .ok v
    rw [hseg, hpadfull]
    exact hpv
  obtain ⟨m, hgo2, hlk⟩ := parseGo_roundtrip spec [] hps
  exact ⟨arr'.take (totalLength spec).toNat, hpack, m, hgo2, fun k => hlk k⟩

/-- C1 counterexample: `LoadSpec` accepts a spec whose two one-byte int
fields overlap at position 1; both values meet their fields' formatting
contracts, packing and re-parsing both succeed, yet the parsed map
disagrees with the input map at field `"a"` — so `parse (pack values) =
values` does not hold for every successfully loaded spec. -/
theorem c1_overlapping_fields_break_roundtrip :
    LoadSpec false [{ name := "a", ftype := "int", start := 1, length := 1 },
      { name := "b", ftype := "int", start := 1, length := 1 }] =
      .ok [{ name := "a", ftype := "int", start := 1, length := 1, End := 1 },
        { name := "b", ftype := "int", start := 1, length := 1, End := 1 }] ∧
    valueContractB { name := "a", ftype := "int", start := 1, length := 1, End := 1 }
      (.int 1) = true ∧
    valueContractB { name := "b", ftype := "int", start := 1, length := 1, End := 1 }
      (.int 2) = true ∧
    (PackRecord [{ name := "a", ftype := "int", start := 1, length := 1, End := 1 },
        { name := "b", ftype := "int", start := 1, length := 1, End := 1 }]
      false [("a", .int 1), ("b", .int 2)] initialPool).1 =
      .ok ['2', Char.ofNat 0] ∧
    ParseRecord [{ name := "a", ftype := "int", start := 1, length := 1, End := 1 },
        { name := "b", ftype := "int", start := 1, length := 1, End := 1 }]
      false ['2', Char.ofNat 0] =
      .ok [("b", .int 2), ("a", .int 2)] ∧
    mlookup [("b", .int 2), ("a", .int 2)] "a" ≠
      mlookup [("a", .int 1), ("b", .int 2)] "a" := by
  decide

theorem c1_roundtrip_disjoint_fields_witness :
    (∀ f ∈ ([{ name := "n", ftype := "int", start := 1, length := 3, End := 3 },
        { name := "s", ftype := "string", start := 4, length := 2, End := 5 },
        { name := "d", ftype := "date", start := 6, length := 8,
          format := ['Y', 'Y', 'Y', 'Y', 'M', 'M', 'D', 'D'], End := 13 }] : CNABSpec),
      fieldLoaded f) ∧
    (∀ f ∈ ([{ name := "n", ftype := "int", start := 1, length := 3, End := 3 },
        { name := "s", ftype := "string", start := 4, length := 2, End := 5 },
        { name := "d", ftype := "date", start := 6, length := 8,
          format := ['Y', 'Y', 'Y', 'Y', 'M', 'M', 'D', 'D'], End := 13 }] : CNABSpec),
      f.End ≤ totalLength
        [{ name := "n", ftype := "int", start := 1, length := 3, End := 3 },
         { name := "s", ftype := "string", start := 4, length := 2, End := 5 },
         { name := "d", ftype := "date", start := 6, length := 8,
           format := ['Y', 'Y', 'Y', 'Y', 'M', 'M', 'D', 'D'], End := 13 }]) ∧
    ∃ out : Bytes,
      (PackRecord [{ name := "n", ftype := "int", start := 1, length := 3, End := 3 },
          { name := "s", ftype := "string", start := 4, length := 2, End := 5 },
          { name := "d", ftype := "date", start := 6, length := 8,
            format := ['Y', 'Y', 'Y', 'Y', 'M', 'M', 'D', 'D'], End := 13 }]
        false
        [("n", .int 7), ("s", .str ['a', 'b']), ("d", .time ⟨2024, 2, 29⟩)]
        initialPool).1 = .ok out ∧
      ∃ m : RecordMap,
        ParseRecord [{ name := "n", ftype := "int", start := 1, length := 3, End := 3 },
            { name := "s", ftype := "string", start := 4, length := 2, End := 5 },
            { name := "d", ftype := "date", start := 6, length := 8,
              format := ['Y', 'Y', 'Y', 'Y', 'M', 'M', 'D', 'D'], End := 13 }]
          false out = .ok m ∧
        ∀ k : String, mlookup m k =
          if k ∈ ([{ name := "n", ftype := "int", start := 1, length := 3, End := 3 },
              { name := "s", ftype := "string", start := 4, length := 2, End := 5 },
              { name := "d", ftype := "date", start := 6, length := 8,
                format := ['Y', 'Y', 'Y', 'Y', 'M', 'M', 'D', 'D'], End := 13 }] :
              CNABSpec).map FieldSpec.name
          then mlookup [("n", .int 7), ("s", .str ['a', 'b']),
            ("d", .time ⟨2024, 2, 29⟩)] k
          else none :=
  ⟨by decide, by decide,
    c1_roundtrip_disjoint_fields
      [{ name := "n", ftype := "int", start := 1, length := 3, End := 3 },
       { name := "s", ftype := "string", start := 4, length := 2, End := 5 },
       { name := "d", ftype := "date", start := 6, length := 8,
         format := ['Y', 'Y', 'Y', 'Y', 'M', 'M', 'D', 'D'], End := 13 }]
      [("n", .int 7), ("s", .str ['a', 'b']), ("d", .time ⟨2024, 2, 29⟩)]
      initialPool (by decide) (by decide) (by decide)
      (by
        intro f hf
        simp only [List.mem_cons, List.not_mem_nil, or_false] at hf
        rcases hf with rfl | rfl | rfl
        · exact ⟨.int 7, by decide, by decide⟩
        · exact ⟨.str ['a', 'b'], by decide, by decide⟩
        · exact ⟨.time ⟨2024, 2, 29⟩, by decide, by decide⟩)⟩

end Cnab
